import Mathlib

/-!
Shallow embedding of `src/hibob_public_mcp/mcp_server.py` (hibob-mcp-fork).

The Python module talks to the HiBob HTTP API. We model:
  * JSON values (`JVal`) as returned by `response.json()` and passed through
    the MCP boundary; numbers are modelled as integers (no claim involves
    floating point),
  * Python runtime exceptions that the code can raise (`PyErr`),
  * the network as an oracle (`Net`) mapping a request to either a transport
    exception or an HTTP response; `_hibob_api_call`'s `raise_for_status`
    raises exactly for status codes in [400, 600),
  * the two module-level caches (`_field_metadata_cache`, `_named_lists_cache`)
    as an explicit `CacheState` threaded through the functions; the cache
    lookups additionally report how many remote calls they performed so that
    call-counting properties can be stated,
  * `_resolve_list_values` and `hibob_people_search` as state-passing
    functions returning `Except PyErr` results (a raised exception escaping
    the function is `.error`).

Python-semantics notes recorded next to the relevant definitions: dicts are
insertion-ordered association lists (assignment replaces in place or appends),
`x.get` raises `AttributeError` on non-dicts, `str.split "."` is `splitDot`,
and `str()` of containers is approximated by a placeholder (no theorem below
depends on stringifying a container).
-/

inductive JVal where
  | null
  | bool (b : Bool)
  | num (n : Int)
  | str (s : String)
  | arr (elems : List JVal)
  | obj (fields : List (String × JVal))

-- Python `==` on JSON values, modelled structurally.  (Python's numeric
-- cross-type equalities such as `True == 1` are not modelled; no claim
-- involves comparing a boolean with a number.)
mutual

def jvalBeq : JVal → JVal → Bool
  | .null, .null => true
  | .bool a, .bool b => a = b
  | .num a, .num b => a = b
  | .str a, .str b => a = b
  | .arr a, .arr b => jvalListBeq a b
  | .obj a, .obj b => jvalObjBeq a b
  | _, _ => false
termination_by structural a => a

def jvalListBeq : List JVal → List JVal → Bool
  | [], [] => true
  | a :: as, b :: bs => jvalBeq a b && jvalListBeq as bs
  | _, _ => false
termination_by structural a => a

def jvalObjBeq : List (String × JVal) → List (String × JVal) → Bool
  | [], [] => true
  | (k1, v1) :: as, (k2, v2) :: bs => k1 = k2 && jvalBeq v1 v2 && jvalObjBeq as bs
  | _, _ => false
termination_by structural a => a

end

/-- Python truthiness of a JSON value (`if x:`). -/
def truthy : JVal → Bool
  | .null => false
  | .bool b => b
  | .num n => n ≠ 0
  | .str s => s ≠ ""
  | .arr l => !l.isEmpty
  | .obj l => !l.isEmpty

/-- Python `x is None` on a JSON value: JSON null decodes to Python's
`None` singleton, so the identity test holds exactly for null. -/
def jvalIsNull : JVal → Bool
  | .null => true
  | _ => false

/-- Python `str()`.  Scalars are rendered as Python renders them; the textual
repr of containers is approximated by a placeholder (the source only ever
stringifies named-list item ids and employee field values, and no theorem
below depends on the container case). -/
def pyStr : JVal → String
  | .null => "None"
  | .bool true => "True"
  | .bool false => "False"
  | .num n => toString n
  | .str s => s
  | .arr _ => "<list>"
  | .obj _ => "<dict>"

/-- Lookup in a string-keyed Python dict (first, i.e. unique, matching key). -/
def lookupS (o : List (String × JVal)) (k : String) : Option JVal :=
  match o with
  | [] => none
  | (k2, v) :: rest => if k2 = k then some v else lookupS rest k

/-- Assignment `d[k] = v` on a string-keyed Python dict: replaces the value in
place if the key is present, otherwise appends (insertion order). -/
def setS (o : List (String × JVal)) (k : String) (v : JVal) : List (String × JVal) :=
  if o.any (fun p => p.1 = k) then
    o.map (fun p => if p.1 = k then (k, v) else p)
  else o ++ [(k, v)]

/-- Lookup in a Python dict keyed by arbitrary (hashable) values, as used for
`_named_lists_cache` and `list_field_map`. -/
def lookupJ (o : List (JVal × JVal)) (k : JVal) : Option JVal :=
  match o with
  | [] => none
  | (k2, v) :: rest => if jvalBeq k2 k then some v else lookupJ rest k

/-- Assignment on a Python dict keyed by values. -/
def setJ (o : List (JVal × JVal)) (k : JVal) (v : JVal) : List (JVal × JVal) :=
  if o.any (fun p => jvalBeq p.1 k) then
    o.map (fun p => if jvalBeq p.1 k then (k, v) else p)
  else o ++ [(k, v)]

/-- Python exceptions relevant to this module. -/
inductive PyErr where
  | attributeError
  | typeError
  | httpError (status : Nat)
  | requestException

/-- Python `v.get(k, dflt)`: dict lookup with default; raises
`AttributeError` when `v` is not a dict. -/
def pyGet (v : JVal) (k : String) (dflt : JVal) : Except PyErr JVal :=
  match v with
  | .obj o => .ok ((lookupS o k).getD dflt)
  | _ => .error .attributeError

/-- Python iteration `for x in v`: lists yield their elements, dicts their
keys, strings their characters; other values raise `TypeError`. -/
def pyIter : JVal → Except PyErr (List JVal)
  | .arr l => .ok l
  | .obj l => .ok (l.map (fun p => .str p.1))
  | .str s => .ok (s.data.map (fun c => .str (String.mk [c])))
  | _ => .error .typeError

/-- Python `s.split "."` on characters (structural, so that the kernel can
evaluate it): splits at every dot, `""` yielding `[""]`. -/
def splitDotAux : List Char → List Char → List String
  | [], acc => [String.mk acc.reverse]
  | c :: cs, acc =>
    if c = '.' then String.mk acc.reverse :: splitDotAux cs []
    else splitDotAux cs (c :: acc)

def splitDot (s : String) : List String := splitDotAux s.data []

structure HttpRequest where
  url : String
  method : String
  body : Option JVal

structure HttpResponse where
  status : Nat
  jsonBody : JVal

/-- The network oracle: what `requests.<method>` returns for a request, a
transport exception or a response with status code and decoded JSON body. -/
def Net : Type := HttpRequest → Except PyErr HttpResponse

/-- Embedding of `_hibob_api_call` (mcp_server.py lines 12-32): builds the URL
from the fixed base, performs the request, and `raise_for_status` raises
`HTTPError` exactly for status codes in [400, 600); otherwise the decoded
JSON body is returned.  (Headers and the token are irrelevant to every claim
and are absorbed into the oracle.) -/
def hibob_api_call (net : Net) (endpoint : String) (body : Option JVal)
    (method : String) : Except PyErr JVal :=
  match net ⟨"https://api.hibob.com/v1/" ++ endpoint, method, body⟩ with
  | .error e => .error e
  | .ok resp =>
      if 400 ≤ resp.status ∧ resp.status < 600 then .error (.httpError resp.status)
      else .ok resp.jsonBody

/-- The two module-level caches (mcp_server.py lines 8-10):
`_field_metadata_cache = None` and `_named_lists_cache = {}`.  The
field-metadata slot holds a Python value, initially `None` (modelled as JSON
null): the sentinel lives in the value space, so a fetch that returns the
JSON literal null stores a value the `is None` check cannot distinguish from
an empty cache. -/
structure CacheState where
  fieldMetadata : JVal
  namedLists : List (JVal × JVal)

def initState : CacheState := ⟨.null, []⟩

/-- Embedding of `_get_field_metadata` (lines 34-42).  The third component
counts remote calls performed (0 or 1): when `_field_metadata_cache is None`
the API is called and the result — or `[]` if the call raised — is stored;
otherwise nothing is fetched.  Note that a successful fetch whose JSON body
is null stores `None` again, so such a response is refetched on every later
lookup — the sentinel check cannot tell it apart from an empty cache. -/
def get_field_metadata (net : Net) (s : CacheState) : CacheState × JVal × Nat :=
  if jvalIsNull s.fieldMetadata then
    match hibob_api_call net "company/people/fields" none "GET" with
    | .ok j => (⟨j, s.namedLists⟩, j, 1)
    | .error _ => (⟨.arr [], s.namedLists⟩, .arr [], 1)
  else (s, s.fieldMetadata, 0)

/-- Embedding of `_get_named_list` (lines 44-52), with the same remote-call
count; a failed fetch caches `{}`. -/
def get_named_list (net : Net) (s : CacheState) (listId : JVal) :
    CacheState × JVal × Nat :=
  match lookupJ s.namedLists listId with
  | some v => (s, v, 0)
  | none =>
      match hibob_api_call net ("company/named-lists/" ++ pyStr listId) none "GET" with
      | .ok j => (⟨s.fieldMetadata, setJ s.namedLists listId j⟩, j, 1)
      | .error _ => (⟨s.fieldMetadata, setJ s.namedLists listId (.obj [])⟩, .obj [], 1)

/-- Is this schema entry's `type` one of the enumeration kinds
`("list", "multi-list", "hierarchy-list")`? -/
def isListType : JVal → Bool
  | .str "list" => true
  | .str "multi-list" => true
  | .str "hierarchy-list" => true
  | _ => false

/-- One iteration of the `for field in fields_meta` loop of
`_resolve_list_values` (lines 65-73): a non-dict entry is skipped; for an
enumeration-typed entry whose id is among the requested fields,
`(field.get("typeData") or {}).get("listId")` is consulted — note the `.get`
raises `AttributeError` when `typeData` is a truthy non-dict. -/
def listFieldEntry (requestedFields : List JVal) (field : JVal) :
    Except PyErr (Option (JVal × JVal)) :=
  match field with
  | .obj o =>
      let ftype := (lookupS o "type").getD .null
      if isListType ftype then
        let fieldId := (lookupS o "id").getD (.str "")
        if requestedFields.any (fun x => jvalBeq fieldId x) then
          let td0 := (lookupS o "typeData").getD .null
          let td := if truthy td0 then td0 else .obj []
          match td with
          | .obj tdo =>
              let listId := (lookupS tdo "listId").getD .null
              if truthy listId then .ok (some (fieldId, listId)) else .ok none
          | _ => .error .attributeError
      else .ok none
      else .ok none
  | _ => .ok none

def buildListFieldMapAux (requestedFields : List JVal) (acc : List (JVal × JVal)) :
    List JVal → Except PyErr (List (JVal × JVal))
  | [] => .ok acc
  | field :: rest =>
      match listFieldEntry requestedFields field with
      | .error e => .error e
      | .ok none => buildListFieldMapAux requestedFields acc rest
      | .ok (some (fid, lid)) =>
          buildListFieldMapAux requestedFields (setJ acc fid lid) rest

/-- The `list_field_map` construction of `_resolve_list_values`
(lines 64-73). -/
def buildListFieldMap (fieldsMeta : JVal) (requestedFields : List JVal) :
    Except PyErr (List (JVal × JVal)) :=
  match pyIter fieldsMeta with
  | .error e => .error e
  | .ok fields => buildListFieldMapAux requestedFields [] fields

/-- One iteration of the `for item in list_data.get("values", [])` loop
(lines 82-86): `item_id = str(item.get("id", ""))`,
`display = item.get("value") or item.get("name", "")`, and the pair is kept
only if both are truthy.  A non-dict item raises `AttributeError`. -/
def itemContribution (item : JVal) : Except PyErr (Option (String × JVal)) :=
  match item with
  | .obj o =>
      let itemId := pyStr ((lookupS o "id").getD (.str ""))
      let v := (lookupS o "value").getD .null
      let display := if truthy v then v else (lookupS o "name").getD (.str "")
      if itemId ≠ "" ∧ truthy display then .ok (some (itemId, display)) else .ok none
  | _ => .error .attributeError

def addListItems (m : List (String × JVal)) : List JVal → Except PyErr (List (String × JVal))
  | [] => .ok m
  | item :: rest =>
      match itemContribution item with
      | .error e => .error e
      | .ok none => addListItems m rest
      | .ok (some (k, d)) => addListItems (setS m k d) rest

/-- The `id_to_display` construction (lines 79-86): for each entry of
`list_field_map` fetch the named list through the cache and add the
qualifying items. -/
def buildIdToDisplay (net : Net) (s : CacheState) (m : List (String × JVal)) :
    List (JVal × JVal) → CacheState × Except PyErr (List (String × JVal))
  | [] => (s, .ok m)
  | (_, listId) :: rest =>
      match get_named_list net s listId with
      | (s1, listData, _) =>
        match pyGet listData "values" (.arr []) with
        | .error e => (s1, .error e)
        | .ok values =>
          match pyIter values with
          | .error e => (s1, .error e)
          | .ok items =>
            match addListItems m items with
            | .error e => (s1, .error e)
            | .ok m2 => buildIdToDisplay net s1 m2 rest

/-- Reading `emp[cat][fname]` when it exists: `some v` exactly when `emp[cat]`
is a dict containing key `fname`. -/
def innerVal (o : List (String × JVal)) (cat fname : String) : Option JVal :=
  match lookupS o cat with
  | some (.obj w) => lookupS w fname
  | _ => none

/-- Common shape of the two per-field rewrites of `_resolve_list_values`
(lines 97-107): if `emp.get(K)` is a dict containing key `F` and the
stringified value stored there is a key of `id_to_display`, replace that
value by the display value; otherwise leave the record untouched. -/
def fieldWriteStep (m : List (String × JVal)) (K F : String)
    (o : List (String × JVal)) : List (String × JVal) :=
  match lookupS o K with
  | some (.obj w) =>
      match lookupS w F with
      | some v =>
          match lookupS m (pyStr v) with
          | some d => setS o K (.obj (setS w F d))
          | none => o
      | none => o
  | _ => o

/-- The dotted-format rewrite of one field on one record (lines 97-101):
if `emp.get(cat)` is a dict containing `fname` and the stringified value is a
key of `id_to_display`, replace it by the display value. -/
def nestedStep (m : List (String × JVal)) (cat fname : String)
    (o : List (String × JVal)) : List (String × JVal) :=
  fieldWriteStep m cat fname o

/-- The slash-prefixed-format rewrite of the same field (lines 102-107):
if `emp.get("/cat/fname")` is a dict containing `"value"`, apply the same
replacement there. -/
def slashStep (m : List (String × JVal)) (cat fname : String)
    (o : List (String × JVal)) : List (String × JVal) :=
  fieldWriteStep m ("/" ++ cat ++ "/" ++ fname) "value" o

/-- Processing of one `field_id` on one record (lines 93-107):
`field_id.split(".")` raises on a non-string id; an id with other than two
dot-separated segments is skipped entirely (the record is not even read);
for a two-segment id, `emp.get(cat)` raises on a non-dict record, and the two
encodings are rewritten in source order (dotted first, then slash). -/
def resolveField (m : List (String × JVal)) (fid : JVal) (emp : JVal) :
    Except PyErr JVal :=
  match fid with
  | .str fs =>
      match splitDot fs with
      | [cat, fname] =>
          match emp with
          | .obj o => .ok (.obj (slashStep m cat fname (nestedStep m cat fname o)))
          | _ => .error .attributeError
      | _ => .ok emp
  | _ => .error .attributeError

/-- The inner `for field_id in list_field_map` loop applied to one record. -/
def resolveEmp (m : List (String × JVal)) (fids : List JVal) (emp : JVal) :
    Except PyErr JVal :=
  match fids with
  | [] => .ok emp
  | fid :: rest =>
      match resolveField m fid emp with
      | .error e => .error e
      | .ok e2 => resolveEmp m rest e2

/-- The outer `for emp in employees` loop (each record is rewritten in
place; an exception aborts the whole call). -/
def resolveEmps (m : List (String × JVal)) (fids : List JVal) :
    List JVal → Except PyErr (List JVal)
  | [] => .ok []
  | emp :: rest =>
      match resolveEmp m fids emp with
      | .error e => .error e
      | .ok e2 =>
          match resolveEmps m fids rest with
          | .error e => .error e
          | .ok l => .ok (e2 :: l)

/-- Embedding of `_resolve_list_values` (lines 54-109).  The employees
argument is an arbitrary JSON value (`result.get("employees", [])` at the
call site can be anything); `requested_fields` is a Python list.  Python
mutates the record collection in place and returns it: when the collection is
a list we rebuild it from the rewritten records; a successful run on any
other collection shape performed no rewrite (its elements are strings, which
are only ever inspected, never replaced), so the original value is
returned. -/
def resolve_list_values (net : Net) (s : CacheState) (employees : JVal)
    (requestedFields : List JVal) : CacheState × Except PyErr JVal :=
  if !truthy employees || requestedFields.isEmpty then (s, .ok employees)
  else
    match get_field_metadata net s with
    | (s1, fieldsMeta, _) =>
      if ¬ truthy fieldsMeta then (s1, .ok employees)
      else
        match buildListFieldMap fieldsMeta requestedFields with
        | .error e => (s1, .error e)
        | .ok listFieldMap =>
          if listFieldMap.isEmpty then (s1, .ok employees)
          else
            match buildIdToDisplay net s1 [] listFieldMap with
            | (s2, .error e) => (s2, .error e)
            | (s2, .ok idToDisplay) =>
              if idToDisplay.isEmpty then (s2, .ok employees)
              else
                match pyIter employees with
                | .error e => (s2, .error e)
                | .ok emps =>
                  match resolveEmps idToDisplay (listFieldMap.map (fun p => p.1)) emps with
                  | .error e => (s2, .error e)
                  | .ok emps2 =>
                    match employees with
                    | .arr _ => (s2, .ok (.arr emps2))
                    | _ => (s2, .ok employees)

/-- The sort key of `hibob_people_search` (line 157):
`0 if (isinstance(e.get("work"), dict) and e["work"].get("reportsTo") is None) else 1`;
`e.get` raises on a non-dict record, and `.get("reportsTo")` is `None` both
when the key is absent and when it holds JSON null. -/
def searchKey (e : JVal) : Except PyErr Nat :=
  match e with
  | .obj o =>
      match lookupS o "work" with
      | some (.obj w) =>
          match lookupS w "reportsTo" with
          | none => .ok 0
          | some .null => .ok 0
          | some _ => .ok 1
      | _ => .ok 1
  | _ => .error .attributeError

def keyedList : List JVal → Except PyErr (List (JVal × Nat))
  | [] => .ok []
  | e :: rest =>
      match searchKey e with
      | .error er => .error er
      | .ok k =>
          match keyedList rest with
          | .error er => .error er
          | .ok l => .ok ((e, k) :: l)

/-- Stable insertion used to model Python's stable `sorted`: an element is
placed before the first element whose key is not smaller, so elements with
equal keys keep their original relative order. -/
def insertByKey (x : JVal × Nat) : List (JVal × Nat) → List (JVal × Nat)
  | [] => [x]
  | y :: ys => if y.2 < x.2 then y :: insertByKey x ys else x :: y :: ys

def isortByKey : List (JVal × Nat) → List (JVal × Nat)
  | [] => []
  | x :: rest => insertByKey x (isortByKey rest)

/-- Python `sorted(employees, key=...)` (lines 155-158): compute every key
(raising if any record makes the key function raise), then stably sort. -/
def pySorted (xs : List JVal) : Except PyErr (List JVal) :=
  match keyedList xs with
  | .error e => .error e
  | .ok l => .ok ((isortByKey l).map (fun p => p.1))

/-- Truthiness of the optional `fields` / `filters` arguments (`if fields:`):
`None` and `[]` are falsy. -/
def optListTruthy : Option (List JVal) → Bool
  | none => false
  | some l => !l.isEmpty

/-- Truthiness of the optional `humanReadable` argument: `None` and `""` are
falsy; every non-empty string is truthy. -/
def optStrTruthy : Option String → Bool
  | none => false
  | some s => s ≠ ""

/-- The request body built by `hibob_people_search` (lines 145-149). -/
def searchBody (fields filters : Option (List JVal)) : JVal :=
  .obj ((if optListTruthy fields then [("fields", .arr (fields.getD []))] else [])
    ++ (if optListTruthy filters then [("filters", .arr (filters.getD []))] else []))

/-- Embedding of `hibob_people_search` (lines 111-159).  The API result is
returned as-is unless both `humanReadable` and `fields` are truthy, in which
case `result.get("employees", [])` (raising on a non-dict result) is passed
through `_resolve_list_values`, stored back, and the stored collection is
replaced by its stable sort under `searchKey`. -/
def hibob_people_search (net : Net) (s : CacheState)
    (fields filters : Option (List JVal)) (humanReadable : Option String) :
    CacheState × Except PyErr JVal :=
  match hibob_api_call net "people/search" (some (searchBody fields filters)) "POST" with
  | .error e => (s, .error e)
  | .ok result =>
    if optStrTruthy humanReadable ∧ optListTruthy fields then
      match result with
      | .obj ro =>
          let empsJ := (lookupS ro "employees").getD (.arr [])
          match resolve_list_values net s empsJ (fields.getD []) with
          | (s2, .error e) => (s2, .error e)
          | (s2, .ok resolvedJ) =>
              let ro1 := setS ro "employees" resolvedJ
              match pyIter resolvedJ with
              | .error e => (s2, .error e)
              | .ok empList =>
                  match pySorted empList with
                  | .error e => (s2, .error e)
                  | .ok sortedL => (s2, .ok (.obj (setS ro1 "employees" (.arr sortedL))))
      | _ => (s, .error .attributeError)
    else (s, .ok result)

/-- The Metadata Store's two lookup operations, viewed as cache keys: the
singleton field-schema key and one key per named-list id. -/
inductive CacheOp where
  | fieldMeta
  | namedList (listId : JVal)

def opBeq : CacheOp → CacheOp → Bool
  | .fieldMeta, .fieldMeta => true
  | .namedList a, .namedList b => jvalBeq a b
  | _, _ => false

def runOp (net : Net) (s : CacheState) : CacheOp → CacheState × Nat
  | .fieldMeta => match get_field_metadata net s with | (s2, _, n) => (s2, n)
  | .namedList k => match get_named_list net s k with | (s2, _, n) => (s2, n)

/-- Total number of remote calls attributed to the key `k` over a sequence of
lookups starting in state `s`. -/
def callsForKey (net : Net) (s : CacheState) (k : CacheOp) : List CacheOp → Nat
  | [] => 0
  | op :: rest =>
      match runOp net s op with
      | (s2, n) => (if opBeq op k then n else 0) + callsForKey net s2 k rest

def runOpsState (net : Net) (s : CacheState) : List CacheOp → CacheState
  | [] => s
  | op :: rest => runOpsState net (runOp net s op).1 rest

/-- The cache entry currently stored for a key (`none` = a lookup would
fetch: the named-list id is absent, or the field-metadata slot holds the
Python `None` sentinel). -/
def keyEntry (s : CacheState) : CacheOp → Option JVal
  | .fieldMeta =>
      if jvalIsNull s.fieldMetadata then none else some s.fieldMetadata
  | .namedList k => lookupJ s.namedLists k

/-- Modelled from the spec: the Employee Snapshot Cache of spec section 4.3
is not present in the source under src/ (only the metadata caches are);
this models its stated behaviour — a single-slot roster cache with a fixed
TTL, refreshed synchronously when there is no prior fetch or the elapsed
time since the last fetch is at least the TTL.  `fetchRoster` stands for the
Directory Client plus Value Resolver refresh path, and the `Nat` component
counts remote fetches performed by the request. -/
structure SnapshotCache where
  snapshot : Option (List JVal)
  lastFetch : Nat

def snapshot_ttl : Nat := 300

def getRoster (fetchRoster : Nat → List JVal) (now : Nat) (c : SnapshotCache) :
    SnapshotCache × List JVal × Nat :=
  match c.snapshot with
  | none => (⟨some (fetchRoster now), now⟩, fetchRoster now, 1)
  | some snap =>
      if snapshot_ttl ≤ now - c.lastFetch then
        (⟨some (fetchRoster now), now⟩, fetchRoster now, 1)
      else (c, snap, 0)

/-- Reading `emp[c][f]` on an arbitrary JSON record: defined exactly when the
record is a dict whose `c` entry is a dict containing `f`. -/
def innerValJ : JVal → String → String → Option JVal
  | .obj o, c, f => innerVal o c f
  | _, _, _ => none

/-- No display value of an id-to-display mapping is itself, stringified, one
of the mapping's keys.  This is the hypothesis under which a second
resolution pass is a no-op. -/
def noSelfKeys (m : List (String × JVal)) : Prop :=
  ∀ p ∈ m, lookupS m (pyStr p.2) = none

/-- Every value readable at location `(c, f)` of the record fails to match a
key of the mapping, so the rewrite loop leaves that location alone. -/
def locOK (m : List (String × JVal)) (emp : JVal) (c f : String) : Prop :=
  ∀ v, innerValJ emp c f = some v → lookupS m (pyStr v) = none

def locOKo (m : List (String × JVal)) (o : List (String × JVal)) (c f : String) : Prop :=
  ∀ v, innerVal o c f = some v → lookupS m (pyStr v) = none

/-- The sort key of `hibob_people_search` as a Boolean predicate: true for
the records placed first (`work` is a dict whose `reportsTo` is Python
`None`, i.e. absent or JSON null). -/
def topLevel (e : JVal) : Bool :=
  match searchKey e with
  | .ok 0 => true
  | _ => false

/-!
Concrete fixtures used by counterexamples and witnesses: a field schema with
one enumeration field `work.title` backed by named list `"L"`, and network
oracles serving various named-list contents.
-/

def fieldsUrl : String := "https://api.hibob.com/v1/company/people/fields"

def listUrlL : String := "https://api.hibob.com/v1/company/named-lists/L"

def searchUrl : String := "https://api.hibob.com/v1/people/search"

def metaWorkTitle : JVal :=
  .arr [.obj [("type", .str "list"), ("id", .str "work.title"),
              ("typeData", .obj [("listId", .str "L")])]]

/-- Named list whose display values collide with other item ids:
`"1" -> "2"` and `"2" -> "3"`. -/
def listDataCollide : JVal :=
  .obj [("values", .arr
    [.obj [("id", .str "1"), ("value", .str "2")],
     .obj [("id", .str "2"), ("value", .str "3")]])]

/-- Well-behaved named list: `"101" -> "CEO"`. -/
def listDataCEO : JVal :=
  .obj [("values", .arr [.obj [("id", .str "101"), ("value", .str "CEO")]])]

def netCollide : Net := fun req =>
  if req.url = fieldsUrl then .ok ⟨200, metaWorkTitle⟩
  else if req.url = listUrlL then .ok ⟨200, listDataCollide⟩
  else .ok ⟨200, .obj []⟩

def netCEO : Net := fun req =>
  if req.url = fieldsUrl then .ok ⟨200, metaWorkTitle⟩
  else if req.url = listUrlL then .ok ⟨200, listDataCEO⟩
  else if req.url = searchUrl then
    .ok ⟨200, .obj [("employees", .arr
      [.obj [("work", .obj [("title", .str "101"), ("reportsTo", .str "b")])],
       .obj [("work", .obj [("title", .str "7"), ("reportsTo", .null)])]])]⟩
  else .ok ⟨200, .obj []⟩

/-- A network on which every request yields HTTP status 500. -/
def net500 : Net := fun _ => .ok ⟨500, .null⟩

/-- A network on which every request succeeds with an empty JSON object. -/
def netEmpty : Net := fun _ => .ok ⟨200, .obj [("values", .arr [])]⟩

def reqWorkTitle : List JVal := [.str "work.title"]

def empsCollide : JVal := .arr [.obj [("work", .obj [("title", .str "1")])]]

def empsCEO : JVal := .arr [.obj [("work", .obj [("title", .str "101")])]]

/-- The stringified id of a named-list item, `str(item.get("id", ""))`. -/
def itemIdStr (io : List (String × JVal)) : String :=
  pyStr ((lookupS io "id").getD (.str ""))

/-- The display value of a named-list item,
`item.get("value") or item.get("name", "")`: the `"value"` attribute when it
is truthy, otherwise the `"name"` attribute (defaulting to `""`). -/
def itemDisplay (io : List (String × JVal)) : JVal :=
  if truthy ((lookupS io "value").getD .null) = true then (lookupS io "value").getD .null
  else (lookupS io "name").getD (.str "")

def opsW : List CacheOp := [.namedList (.str "L"), .fieldMeta, .namedList (.str "L")]

def sPopW : CacheState := ⟨.arr [], [(.str "L", .obj [])]⟩

/-- A network whose every response is HTTP 200 with JSON body null. -/
def netNullSchema : Net := fun _ => .ok ⟨200, .null⟩

/-!
Helper lemmas.  First, soundness of the modelled Python equality; then the
basic dictionary lemmas; then the behaviour of the two cache lookups.
-/

mutual

theorem jvalBeq_iff : ∀ a b : JVal, jvalBeq a b = true ↔ a = b
  | .null, b => by cases b <;> simp [jvalBeq]
  | .bool a, b => by cases b <;> simp [jvalBeq]
  | .num a, b => by cases b <;> simp [jvalBeq]
  | .str a, b => by cases b <;> simp [jvalBeq]
  | .arr a, b => by
      cases b <;> simp [jvalBeq]
      exact jvalListBeq_iff a _
  | .obj a, b => by
      cases b <;> simp [jvalBeq]
      exact jvalObjBeq_iff a _
termination_by structural a => a

theorem jvalListBeq_iff : ∀ a b : List JVal, jvalListBeq a b = true ↔ a = b
  | [], b => by cases b <;> simp [jvalListBeq]
  | a :: as, b => by
      cases b with
      | nil => simp [jvalListBeq]
      | cons b bs =>
        simp [jvalListBeq, Bool.and_eq_true, jvalBeq_iff a b, jvalListBeq_iff as bs]
termination_by structural a => a

theorem jvalObjBeq_iff : ∀ a b : List (String × JVal), jvalObjBeq a b = true ↔ a = b
  | [], b => by cases b <;> simp [jvalObjBeq]
  | (k1, v1) :: as, b => by
      cases b with
      | nil => simp [jvalObjBeq]
      | cons p bs =>
        obtain ⟨k2, v2⟩ := p
        simp [jvalObjBeq, Bool.and_eq_true, jvalBeq_iff v1 v2, jvalObjBeq_iff as bs,
          and_assoc]
termination_by structural a => a

end

theorem jvalBeq_refl (a : JVal) : jvalBeq a a = true := (jvalBeq_iff a a).mpr rfl

theorem opBeq_iff (a b : CacheOp) : opBeq a b = true ↔ a = b := by
  cases a <;> cases b <;> simp [opBeq, jvalBeq_iff]

theorem lookupJ_none_any_false (o : List (JVal × JVal)) (k : JVal)
    (h : lookupJ o k = none) : o.any (fun p => jvalBeq p.1 k) = false := by
  induction o with
  | nil => rfl
  | cons p rest ih =>
      obtain ⟨k2, v⟩ := p
      unfold lookupJ at h
      by_cases hb : jvalBeq k2 k = true
      · simp [hb] at h
      · simp only [Bool.not_eq_true] at hb
        simp only [hb, Bool.false_eq_true, if_false] at h
        simp [List.any_cons, hb, ih h]

theorem lookupJ_append (o l : List (JVal × JVal)) (k : JVal) :
    lookupJ (o ++ l) k =
      (match lookupJ o k with
       | some v => some v
       | none => lookupJ l k) := by
  induction o with
  | nil => simp [lookupJ]
  | cons p rest ih =>
      obtain ⟨k2, v⟩ := p
      by_cases hb : jvalBeq k2 k = true
      · simp [lookupJ, hb]
      · simp only [Bool.not_eq_true] at hb
        simp [lookupJ, hb, ih]

theorem lookupJ_setJ_new (o : List (JVal × JVal)) (k : JVal) (v : JVal)
    (h : lookupJ o k = none) : lookupJ (setJ o k v) k = some v := by
  unfold setJ
  rw [lookupJ_none_any_false o k h]
  simp only [Bool.false_eq_true, if_false]
  rw [lookupJ_append, h]
  simp [lookupJ, jvalBeq_refl]

theorem lookupJ_setJ_preserve (o : List (JVal × JVal)) (k k2 : JVal) (v v2 : JVal)
    (hmiss : lookupJ o k2 = none) (h : lookupJ o k = some v) :
    lookupJ (setJ o k2 v2) k = some v := by
  unfold setJ
  rw [lookupJ_none_any_false o k2 hmiss]
  simp only [Bool.false_eq_true, if_false]
  rw [lookupJ_append, h]

theorem jvalIsNull_eq_false (j : JVal) (h : j ≠ .null) : jvalIsNull j = false := by
  cases j with
  | null => exact absurd rfl h
  | bool b => rfl
  | num n => rfl
  | str s2 => rfl
  | arr l => rfl
  | obj o => rfl

theorem get_field_metadata_hit (net : Net) (s : CacheState)
    (h : jvalIsNull s.fieldMetadata = false) :
    get_field_metadata net s = (s, s.fieldMetadata, 0) := by
  unfold get_field_metadata
  rw [h]
  simp

theorem get_field_metadata_spec (net : Net) (s s2 : CacheState) (v : JVal) (n : Nat)
    (h : get_field_metadata net s = (s2, v, n)) :
    s2.namedLists = s.namedLists ∧ n ≤ 1 ∧ s2.fieldMetadata = v := by
  unfold get_field_metadata at h
  by_cases hn : jvalIsNull s.fieldMetadata = true
  · rw [if_pos hn] at h
    cases hc : hibob_api_call net "company/people/fields" none "GET" with
    | ok j =>
        rw [hc] at h
        simp only [Prod.mk.injEq] at h
        obtain ⟨rfl, rfl, rfl⟩ := h
        exact ⟨rfl, Nat.le_refl 1, rfl⟩
    | error e =>
        rw [hc] at h
        simp only [Prod.mk.injEq] at h
        obtain ⟨rfl, rfl, rfl⟩ := h
        exact ⟨rfl, Nat.le_refl 1, rfl⟩
  · rw [if_neg hn] at h
    simp only [Prod.mk.injEq] at h
    obtain ⟨rfl, rfl, rfl⟩ := h
    exact ⟨rfl, Nat.zero_le 1, rfl⟩

theorem get_field_metadata_restart (net : Net) (s s2 : CacheState) (v : JVal) (n : Nat)
    (h : get_field_metadata net s = (s2, v, n)) :
    ∀ s3 : CacheState, s3.fieldMetadata = s2.fieldMetadata →
      ∃ n2, get_field_metadata net s3 = (s3, v, n2) := by
  intro s3 h3
  unfold get_field_metadata at h
  by_cases hn : jvalIsNull s.fieldMetadata = true
  · rw [if_pos hn] at h
    cases hc : hibob_api_call net "company/people/fields" none "GET" with
    | ok j =>
        rw [hc] at h
        simp only [Prod.mk.injEq] at h
        obtain ⟨rfl, rfl, rfl⟩ := h
        by_cases hj : jvalIsNull j = true
        · refine ⟨1, ?_⟩
          have h4 : jvalIsNull s3.fieldMetadata = true := by rw [h3]; exact hj
          have h5 : j = .null := by
            cases j with
            | null => rfl
            | bool b => cases hj
            | num n2 => cases hj
            | str s4 => cases hj
            | arr l => cases hj
            | obj o => cases hj
          have heta : (⟨j, s3.namedLists⟩ : CacheState) = s3 := by
            rw [show j = s3.fieldMetadata from h3.symm]
          unfold get_field_metadata
          rw [if_pos h4, hc]
          show ((⟨j, s3.namedLists⟩ : CacheState), j, 1) = (s3, j, 1)
          rw [heta]
        · refine ⟨0, ?_⟩
          have h4 : jvalIsNull s3.fieldMetadata = false := by
            rw [h3]
            simpa using hj
          rw [get_field_metadata_hit net s3 h4, h3]
    | error e =>
        rw [hc] at h
        simp only [Prod.mk.injEq] at h
        obtain ⟨rfl, rfl, rfl⟩ := h
        refine ⟨0, ?_⟩
        have h4 : jvalIsNull s3.fieldMetadata = false := by rw [h3]; rfl
        rw [get_field_metadata_hit net s3 h4, h3]
  · rw [if_neg hn] at h
    simp only [Prod.mk.injEq] at h
    obtain ⟨rfl, rfl, rfl⟩ := h
    refine ⟨0, ?_⟩
    have h4 : jvalIsNull s3.fieldMetadata = false := by
      rw [h3]
      simpa using hn
    rw [get_field_metadata_hit net s3 h4, h3]


theorem get_named_list_hit (net : Net) (s : CacheState) (k v : JVal)
    (h : lookupJ s.namedLists k = some v) : get_named_list net s k = (s, v, 0) := by
  unfold get_named_list
  rw [h]

theorem get_named_list_spec (net : Net) (s s2 : CacheState) (k v : JVal) (n : Nat)
    (h : get_named_list net s k = (s2, v, n)) :
    lookupJ s2.namedLists k = some v ∧ s2.fieldMetadata = s.fieldMetadata ∧
      (∀ k2 v2, lookupJ s.namedLists k2 = some v2 → lookupJ s2.namedLists k2 = some v2) ∧
      n ≤ 1 := by
  unfold get_named_list at h
  cases hm : lookupJ s.namedLists k with
  | some w =>
      rw [hm] at h
      simp only [Prod.mk.injEq] at h
      obtain ⟨rfl, rfl, rfl⟩ := h
      exact ⟨hm, rfl, fun k2 v2 hk => hk, Nat.zero_le 1⟩
  | none =>
      rw [hm] at h
      cases hc : hibob_api_call net ("company/named-lists/" ++ pyStr k) none "GET" with
      | ok j =>
          rw [hc] at h
          simp only [Prod.mk.injEq] at h
          obtain ⟨rfl, rfl, rfl⟩ := h
          exact ⟨lookupJ_setJ_new _ _ _ hm, rfl,
            fun k2 v2 hk => lookupJ_setJ_preserve _ _ _ _ _ hm hk, Nat.le_refl 1⟩
      | error e =>
          rw [hc] at h
          simp only [Prod.mk.injEq] at h
          obtain ⟨rfl, rfl, rfl⟩ := h
          exact ⟨lookupJ_setJ_new _ _ _ hm, rfl,
            fun k2 v2 hk => lookupJ_setJ_preserve _ _ _ _ _ hm hk, Nat.le_refl 1⟩

theorem runOp_hit (net : Net) (s : CacheState) (k : CacheOp) (v : JVal)
    (h : keyEntry s k = some v) : runOp net s k = (s, 0) := by
  cases k with
  | fieldMeta =>
      simp only [keyEntry] at h
      by_cases hn : jvalIsNull s.fieldMetadata = true
      · rw [if_pos hn] at h
        cases h
      · simp only [Bool.not_eq_true] at hn
        simp [runOp, get_field_metadata_hit net s hn]
  | namedList kk =>
      simp only [keyEntry] at h
      simp [runOp, get_named_list_hit net s kk v h]

theorem runOp_preserves_entry (net : Net) (s : CacheState) (op k : CacheOp) (v : JVal)
    (h : keyEntry s k = some v) : keyEntry (runOp net s op).1 k = some v := by
  cases op with
  | fieldMeta =>
      rcases hop : get_field_metadata net s with ⟨s2, w, n⟩
      obtain ⟨h1, h2, h3⟩ := get_field_metadata_spec net s s2 w n hop
      cases k with
      | fieldMeta =>
          rw [runOp_hit net s .fieldMeta v h]
          exact h
      | namedList kk =>
          simp only [keyEntry] at h ⊢
          simp only [runOp, hop]
          rw [h1]
          exact h
  | namedList kop =>
      rcases hop : get_named_list net s kop with ⟨s2, w, n⟩
      obtain ⟨h1, h2, h3, h4⟩ := get_named_list_spec net s s2 kop w n hop
      cases k with
      | fieldMeta =>
          simp only [keyEntry] at h ⊢
          simp only [runOp, hop]
          rw [h2]
          exact h
      | namedList kk =>
          simp only [keyEntry] at h ⊢
          simp only [runOp, hop]
          exact h3 kk v h

theorem runOp_populates_namedList (net : Net) (kk : JVal) (s : CacheState) :
    ∃ v, keyEntry (runOp net s (.namedList kk)).1 (.namedList kk) = some v := by
  rcases hop : get_named_list net s kk with ⟨s2, w, n⟩
  obtain ⟨h1, _, _, _⟩ := get_named_list_spec net s s2 kk w n hop
  exact ⟨w, by simp [runOp, hop, keyEntry, h1]⟩

theorem runOp_populates_fieldMeta (net : Net)
    (hgood : hibob_api_call net "company/people/fields" none "GET" ≠ .ok .null)
    (s : CacheState) :
    ∃ v, keyEntry (runOp net s .fieldMeta).1 .fieldMeta = some v := by
  by_cases hn : jvalIsNull s.fieldMetadata = true
  · cases hc : hibob_api_call net "company/people/fields" none "GET" with
    | ok j =>
        have hj : j ≠ .null := fun hje => hgood (by rw [hc, hje])
        refine ⟨j, ?_⟩
        simp only [runOp, get_field_metadata, if_pos hn, hc, keyEntry]
        rw [if_neg (by rw [jvalIsNull_eq_false j hj]; exact Bool.false_ne_true)]
    | error e =>
        refine ⟨.arr [], ?_⟩
        simp only [runOp, get_field_metadata, if_pos hn, hc, keyEntry]
        rfl
  · simp only [Bool.not_eq_true] at hn
    refine ⟨s.fieldMetadata, ?_⟩
    simp only [runOp, get_field_metadata_hit net s hn, keyEntry]
    rw [if_neg (by rw [hn]; exact Bool.false_ne_true)]

theorem runOp_le_one (net : Net) (s : CacheState) (op : CacheOp) :
    (runOp net s op).2 ≤ 1 := by
  cases op with
  | fieldMeta =>
      rcases hop : get_field_metadata net s with ⟨s2, w, n⟩
      obtain ⟨_, h2, _⟩ := get_field_metadata_spec net s s2 w n hop
      simpa [runOp, hop] using h2
  | namedList kk =>
      rcases hop : get_named_list net s kk with ⟨s2, w, n⟩
      obtain ⟨_, _, _, h4⟩ := get_named_list_spec net s s2 kk w n hop
      simpa [runOp, hop] using h4

theorem populated_no_calls (net : Net) (k : CacheOp) :
    ∀ (ops : List CacheOp) (s : CacheState) (v : JVal), keyEntry s k = some v →
      callsForKey net s k ops = 0 ∧ keyEntry (runOpsState net s ops) k = some v := by
  intro ops
  induction ops with
  | nil => intro s v h; exact ⟨rfl, h⟩
  | cons op rest ih =>
      intro s v h
      rcases hop : runOp net s op with ⟨s2, n⟩
      have hp : keyEntry s2 k = some v := by
        have := runOp_preserves_entry net s op k v h
        rwa [hop] at this
      constructor
      · by_cases hbeq : opBeq op k = true
        · obtain rfl := (opBeq_iff op k).mp hbeq
          have hr := runOp_hit net s op v h
          rw [hr] at hop
          simp only [Prod.mk.injEq] at hop
          obtain ⟨rfl, rfl⟩ := hop
          simp only [callsForKey, hr, hbeq, if_true]
          simpa using (ih s v h).1
        · simp only [Bool.not_eq_true] at hbeq
          simp only [callsForKey, hop, hbeq, Bool.false_eq_true, if_false,
            Nat.zero_add]
          exact (ih s2 v hp).1
      · simp only [runOpsState, hop]
        exact (ih s2 v hp).2

theorem callsForKey_le_one_of (net : Net) (k : CacheOp)
    (hpop : ∀ s : CacheState, ∃ v, keyEntry (runOp net s k).1 k = some v) :
    ∀ (ops : List CacheOp) (s : CacheState), callsForKey net s k ops ≤ 1 := by
  intro ops
  induction ops with
  | nil => intro s; exact Nat.zero_le 1
  | cons op rest ih =>
      intro s
      rcases hop : runOp net s op with ⟨s2, n⟩
      by_cases hbeq : opBeq op k = true
      · obtain rfl := (opBeq_iff op k).mp hbeq
        obtain ⟨v, hv⟩ := hpop s
        rw [hop] at hv
        have hz := (populated_no_calls net op rest s2 v hv).1
        have hn : n ≤ 1 := by
          have := runOp_le_one net s op
          rwa [hop] at this
        simp only [callsForKey, hop, hbeq, if_true, hz]
        omega
      · simp only [Bool.not_eq_true] at hbeq
        simp only [callsForKey, hop, hbeq, Bool.false_eq_true, if_false,
          Nat.zero_add]
        exact ih s2


theorem lookupS_none_any_false (o : List (String × JVal)) (k : String)
    (h : lookupS o k = none) : o.any (fun p => p.1 = k) = false := by
  induction o with
  | nil => rfl
  | cons p rest ih =>
      obtain ⟨k2, v⟩ := p
      unfold lookupS at h
      by_cases hb : k2 = k
      · simp [hb] at h
      · simp only [hb, if_false, decide_eq_true_eq] at h ⊢
        simp [List.any_cons, hb, ih h]

theorem lookupS_append (o l : List (String × JVal)) (k : String) :
    lookupS (o ++ l) k =
      (match lookupS o k with
       | some v => some v
       | none => lookupS l k) := by
  induction o with
  | nil => simp [lookupS]
  | cons p rest ih =>
      obtain ⟨k2, v⟩ := p
      by_cases hb : k2 = k
      · simp [lookupS, hb]
      · simp [lookupS, hb, ih]

theorem lookupS_map_replace_self (o : List (String × JVal)) (k : String) (v : JVal)
    (h : o.any (fun p => p.1 = k) = true) :
    lookupS (o.map (fun p => if p.1 = k then (k, v) else p)) k = some v := by
  induction o with
  | nil => simp at h
  | cons p rest ih =>
      obtain ⟨k2, w⟩ := p
      rw [List.map_cons]
      by_cases hb : k2 = k
      · have he : (if (k2, w).1 = k then (k, v) else (k2, w)) = (k, v) := by simp [hb]
        rw [he]
        simp [lookupS]
      · have he : (if (k2, w).1 = k then (k, v) else (k2, w)) = (k2, w) := by simp [hb]
        rw [he]
        have hr : rest.any (fun p => p.1 = k) = true := by
          simpa [List.any_cons, hb] using h
        simp [lookupS, hb, ih hr]

theorem lookupS_map_replace_ne (o : List (String × JVal)) (k c : String) (v : JVal)
    (hne : c ≠ k) :
    lookupS (o.map (fun p => if p.1 = k then (k, v) else p)) c = lookupS o c := by
  induction o with
  | nil => simp
  | cons p rest ih =>
      obtain ⟨k2, w⟩ := p
      rw [List.map_cons]
      by_cases hb : k2 = k
      · have he : (if (k2, w).1 = k then (k, v) else (k2, w)) = (k, v) := by simp [hb]
        rw [he]
        have h1 : ¬(k = c) := fun hc => hne (Eq.symm hc)
        have h2 : ¬(k2 = c) := by rw [hb]; exact h1
        simp [lookupS, h1, h2, ih]
      · have he : (if (k2, w).1 = k then (k, v) else (k2, w)) = (k2, w) := by simp [hb]
        rw [he]
        by_cases hc : k2 = c
        · simp [lookupS, hc]
        · simp [lookupS, hc, ih]

theorem lookupS_setS_self (o : List (String × JVal)) (k : String) (v : JVal) :
    lookupS (setS o k v) k = some v := by
  unfold setS
  by_cases h : o.any (fun p => p.1 = k) = true
  · simp only [h, if_true]
    exact lookupS_map_replace_self o k v h
  · simp only [h, Bool.false_eq_true, if_false]
    rw [lookupS_append]
    simp only [Bool.not_eq_true] at h
    have hn : lookupS o k = none := by
      induction o with
      | nil => rfl
      | cons p rest ih =>
          obtain ⟨k2, w⟩ := p
          by_cases hb : k2 = k
          · simp [List.any_cons, hb] at h
          · have hr : rest.any (fun p => p.1 = k) = false := by
              simpa [List.any_cons, hb] using h
            simp [lookupS, hb, ih hr]
    rw [hn]
    simp [lookupS]

theorem lookupS_setS_ne (o : List (String × JVal)) (k c : String) (v : JVal)
    (hne : c ≠ k) : lookupS (setS o k v) c = lookupS o c := by
  unfold setS
  by_cases h : o.any (fun p => p.1 = k) = true
  · simp only [h, if_true]
    exact lookupS_map_replace_ne o k c v hne
  · simp only [h, Bool.false_eq_true, if_false]
    rw [lookupS_append]
    cases hc : lookupS o c with
    | some w => rfl
    | none =>
        have hkc : ¬(k = c) := fun hx => hne (Eq.symm hx)
        simp [lookupS, hkc]

theorem lookupS_mem (o : List (String × JVal)) (k : String) (v : JVal)
    (h : lookupS o k = some v) : (k, v) ∈ o := by
  induction o with
  | nil => cases h
  | cons p rest ih =>
      obtain ⟨k2, w⟩ := p
      unfold lookupS at h
      by_cases hb : k2 = k
      · rw [if_pos hb] at h
        injection h with hv
        subst hv
        subst hb
        exact List.mem_cons_self _ _
      · rw [if_neg hb] at h
        exact List.mem_cons_of_mem _ (ih h)

theorem noSelfKeys_lookup (m : List (String × JVal)) (hm : noSelfKeys m)
    (k : String) (d : JVal) (h : lookupS m k = some d) :
    lookupS m (pyStr d) = none :=
  hm (k, d) (lookupS_mem m k d h)

theorem innerVal_some_iff (o : List (String × JVal)) (K F : String) (v : JVal) :
    innerVal o K F = some v ↔
      ∃ w, lookupS o K = some (.obj w) ∧ lookupS w F = some v := by
  unfold innerVal
  cases hK : lookupS o K with
  | none => simp
  | some x =>
      cases x <;> simp

theorem innerVal_write (o w : List (String × JVal)) (K F : String) (d : JVal)
    (hK : lookupS o K = some (.obj w)) (c f : String) :
    innerVal (setS o K (.obj (setS w F d))) c f =
      if c = K ∧ f = F then some d else innerVal o c f := by
  by_cases hc : c = K
  · subst hc
    by_cases hf : f = F
    · subst hf
      simp only [innerVal, lookupS_setS_self, lookupS_setS_self]
      simp
    · simp only [innerVal, lookupS_setS_self, lookupS_setS_ne w F f d hf, hK]
      simp [hf]
  · simp only [innerVal, lookupS_setS_ne o K c _ hc]
    simp [hc]

theorem fieldWriteStep_write (m : List (String × JVal)) (K F : String)
    (o w : List (String × JVal)) (v0 d : JVal)
    (hK : lookupS o K = some (.obj w)) (hF : lookupS w F = some v0)
    (hd : lookupS m (pyStr v0) = some d) :
    fieldWriteStep m K F o = setS o K (.obj (setS w F d)) := by
  unfold fieldWriteStep
  split
  · next w2 heq =>
      rw [hK] at heq
      injection heq with heq
      injection heq with heq
      subst heq
      split
      · next v2 heq2 =>
          rw [hF] at heq2
          injection heq2 with heq2
          subst heq2
          split
          · next d2 heq3 =>
              rw [hd] at heq3
              injection heq3 with heq3
              subst heq3
              rfl
          · next heq3 => rw [hd] at heq3; cases heq3
      · next heq2 => rw [hF] at heq2; cases heq2
  · next x hne => exact absurd hK (hne w)

theorem fieldWriteStep_skip (m : List (String × JVal)) (K F : String)
    (o : List (String × JVal)) (h : innerVal o K F = none) :
    fieldWriteStep m K F o = o := by
  unfold fieldWriteStep
  split
  · next w heq =>
      split
      · next v heq2 =>
          exfalso
          have : innerVal o K F = some v := (innerVal_some_iff o K F v).mpr ⟨w, heq, heq2⟩
          rw [h] at this
          cases this
      · rfl
  · rfl

theorem fieldWriteStep_nomatch (m : List (String × JVal)) (K F : String)
    (o : List (String × JVal)) (v0 : JVal)
    (hiv : innerVal o K F = some v0) (hd : lookupS m (pyStr v0) = none) :
    fieldWriteStep m K F o = o := by
  obtain ⟨w, hK, hF⟩ := (innerVal_some_iff o K F v0).mp hiv
  unfold fieldWriteStep
  split
  · next w2 heq =>
      rw [hK] at heq
      injection heq with heq
      injection heq with heq
      subst heq
      split
      · next v2 heq2 =>
          rw [hF] at heq2
          injection heq2 with heq2
          subst heq2
          split
          · next d2 heq3 => rw [hd] at heq3; cases heq3
          · rfl
      · rfl
  · rfl

theorem fieldWriteStep_cases (m : List (String × JVal)) (K F : String)
    (o : List (String × JVal)) :
    (fieldWriteStep m K F o = o ∧ locOKo m o K F) ∨
    (∃ w v0 d, lookupS o K = some (.obj w) ∧ lookupS w F = some v0 ∧
      lookupS m (pyStr v0) = some d ∧
      fieldWriteStep m K F o = setS o K (.obj (setS w F d))) := by
  cases hiv : innerVal o K F with
  | none =>
      left
      refine ⟨fieldWriteStep_skip m K F o hiv, fun v hv => ?_⟩
      rw [hiv] at hv
      cases hv
  | some v0 =>
      cases hd : lookupS m (pyStr v0) with
      | none =>
          left
          refine ⟨fieldWriteStep_nomatch m K F o v0 hiv hd, fun v hv => ?_⟩
          rw [hiv] at hv
          injection hv with hv
          subst hv
          exact hd
      | some d =>
          right
          obtain ⟨w, hK, hF⟩ := (innerVal_some_iff o K F v0).mp hiv
          exact ⟨w, v0, d, hK, hF, hd, fieldWriteStep_write m K F o w v0 d hK hF hd⟩

theorem fieldWriteStep_own (m : List (String × JVal)) (K F : String)
    (o : List (String × JVal)) (hm : noSelfKeys m) :
    locOKo m (fieldWriteStep m K F o) K F := by
  rcases fieldWriteStep_cases m K F o with ⟨heq, hloc⟩ | ⟨w, v0, d, hK, hF, hd, heq⟩
  · rw [heq]; exact hloc
  · rw [heq]
    intro v hv
    rw [innerVal_write o w K F d hK K F] at hv
    simp only [and_self, if_pos, if_true] at hv
    injection hv with hv
    subst hv
    exact noSelfKeys_lookup m hm _ _ hd

theorem fieldWriteStep_pres (m : List (String × JVal)) (K F c f : String)
    (o : List (String × JVal)) (hm : noSelfKeys m) (hloc : locOKo m o c f) :
    locOKo m (fieldWriteStep m K F o) c f := by
  by_cases hcf : c = K ∧ f = F
  · obtain ⟨rfl, rfl⟩ := hcf
    exact fieldWriteStep_own m c f o hm
  · rcases fieldWriteStep_cases m K F o with ⟨heq, _⟩ | ⟨w, v0, d, hK, hF, hd, heq⟩
    · rw [heq]; exact hloc
    · rw [heq]
      intro v hv
      rw [innerVal_write o w K F d hK c f, if_neg hcf] at hv
      exact hloc v hv

theorem fieldWriteStep_noop (m : List (String × JVal)) (K F : String)
    (o : List (String × JVal)) (hloc : locOKo m o K F) :
    fieldWriteStep m K F o = o := by
  rcases fieldWriteStep_cases m K F o with ⟨heq, _⟩ | ⟨w, v0, d, hK, hF, hd, heq⟩
  · exact heq
  · exfalso
    have hiv : innerVal o K F = some v0 := (innerVal_some_iff o K F v0).mpr ⟨w, hK, hF⟩
    rw [hloc v0 hiv] at hd
    cases hd

theorem innerValJ_obj (o : List (String × JVal)) (c f : String) :
    innerValJ (.obj o) c f = innerVal o c f := rfl

theorem resolveField_str (m : List (String × JVal)) (fs cat fname : String)
    (o : List (String × JVal)) (hsplit : splitDot fs = [cat, fname]) :
    resolveField m (.str fs) (.obj o) =
      .ok (.obj (slashStep m cat fname (nestedStep m cat fname o))) := by
  simp only [resolveField]
  rw [hsplit]

theorem resolveField_skip (m : List (String × JVal)) (fs : String) (emp : JVal)
    (hlen : (splitDot fs).length ≠ 2) :
    resolveField m (.str fs) emp = .ok emp := by
  simp only [resolveField]
  split
  · next cat fname heq => rw [heq] at hlen; cases hlen rfl
  · rfl

theorem resolveField_ok_inversion (m : List (String × JVal)) (fid emp out : JVal)
    (h : resolveField m fid emp = .ok out) :
    ∃ fs, fid = .str fs ∧
      (((splitDot fs).length ≠ 2 ∧ out = emp) ∨
       (∃ cat fname o, splitDot fs = [cat, fname] ∧ emp = .obj o ∧
         out = .obj (slashStep m cat fname (nestedStep m cat fname o)))) := by
  cases fid with
  | str fs =>
      refine ⟨fs, rfl, ?_⟩
      simp only [resolveField] at h
      split at h
      · next cat fname heq =>
          split at h
          · next o =>
              right
              injection h with h
              exact ⟨cat, fname, o, heq, rfl, h.symm⟩
          · next x hx => exact Except.noConfusion h
      · next hne =>
          left
          injection h with h
          refine ⟨?_, h.symm⟩
          intro hlen
          cases hsp : splitDot fs with
          | nil => rw [hsp] at hlen; cases hlen
          | cons a t =>
              cases t with
              | nil => rw [hsp] at hlen; cases hlen
              | cons b t2 =>
                  cases t2 with
                  | nil => exact hne a b hsp
                  | cons c t3 => rw [hsp] at hlen; simp at hlen
  | null => simp only [resolveField] at h; exact Except.noConfusion h
  | bool b => simp only [resolveField] at h; exact Except.noConfusion h
  | num n => simp only [resolveField] at h; exact Except.noConfusion h
  | arr l => simp only [resolveField] at h; exact Except.noConfusion h
  | obj o => simp only [resolveField] at h; exact Except.noConfusion h

theorem resolveField_pres (m : List (String × JVal)) (fid emp out : JVal)
    (c f : String) (hm : noSelfKeys m)
    (h : resolveField m fid emp = .ok out) (hloc : locOK m emp c f) :
    locOK m out c f := by
  obtain ⟨fs, rfl, hcase⟩ := resolveField_ok_inversion m _ emp out h
  rcases hcase with ⟨_, rfl⟩ | ⟨cat, fname, o, hsplit, rfl, rfl⟩
  · exact hloc
  · intro v hv
    rw [innerValJ_obj] at hv
    have hloco : locOKo m o c f := fun v2 hv2 => hloc v2 hv2
    have h1 : locOKo m (nestedStep m cat fname o) c f :=
      fieldWriteStep_pres m cat fname c f o hm hloco
    have h2 : locOKo m (slashStep m cat fname (nestedStep m cat fname o)) c f :=
      fieldWriteStep_pres m _ _ c f _ hm h1
    exact h2 v hv

theorem resolveField_own (m : List (String × JVal)) (fs cat fname : String)
    (emp out : JVal) (hm : noSelfKeys m)
    (h : resolveField m (.str fs) emp = .ok out)
    (hsplit : splitDot fs = [cat, fname]) :
    locOK m out cat fname ∧ locOK m out ("/" ++ cat ++ "/" ++ fname) "value" := by
  obtain ⟨fs2, hfs, hcase⟩ := resolveField_ok_inversion m _ emp out h
  injection hfs with hfs
  subst hfs
  rcases hcase with ⟨hlen, rfl⟩ | ⟨cat2, fname2, o, hsplit2, rfl, rfl⟩
  · rw [hsplit] at hlen; cases hlen rfl
  · rw [hsplit] at hsplit2
    injection hsplit2 with h1 h2
    injection h2 with h2
    subst h1
    subst h2
    constructor
    · intro v hv
      rw [innerValJ_obj] at hv
      have hn : locOKo m (nestedStep m cat fname o) cat fname :=
        fieldWriteStep_own m cat fname o hm
      have hs : locOKo m (slashStep m cat fname (nestedStep m cat fname o)) cat fname :=
        fieldWriteStep_pres m _ _ cat fname _ hm hn
      exact hs v hv
    · intro v hv
      rw [innerValJ_obj] at hv
      have hs : locOKo m (slashStep m cat fname (nestedStep m cat fname o))
          ("/" ++ cat ++ "/" ++ fname) "value" :=
        fieldWriteStep_own m _ _ _ hm
      exact hs v hv

theorem resolveField_noop (m : List (String × JVal)) (fs cat fname : String)
    (o : List (String × JVal)) (hsplit : splitDot fs = [cat, fname])
    (h1 : locOK m (.obj o) cat fname)
    (h2 : locOK m (.obj o) ("/" ++ cat ++ "/" ++ fname) "value") :
    resolveField m (.str fs) (.obj o) = .ok (.obj o) := by
  rw [resolveField_str m fs cat fname o hsplit]
  have hn : nestedStep m cat fname o = o :=
    fieldWriteStep_noop m cat fname o (fun v hv => h1 v hv)
  rw [hn]
  have hs : slashStep m cat fname o = o :=
    fieldWriteStep_noop m _ _ o (fun v hv => h2 v hv)
  rw [hs]

theorem resolveEmp_ok_str (m : List (String × JVal)) :
    ∀ (fids : List JVal) (emp out : JVal), resolveEmp m fids emp = .ok out →
      ∀ fid ∈ fids, ∃ fs, fid = .str fs := by
  intro fids
  induction fids with
  | nil => intro emp out h fid hmem; cases hmem
  | cons fid0 rest ih =>
      intro emp out h fid hmem
      simp only [resolveEmp] at h
      split at h
      · next e he => exact Except.noConfusion h
      · next e1 he =>
          cases hmem with
          | head =>
              obtain ⟨fs, hfs, _⟩ := resolveField_ok_inversion m fid0 emp e1 he
              exact ⟨fs, hfs⟩
          | tail _ hmem2 => exact ih e1 out h fid hmem2

theorem resolveEmp_obj (m : List (String × JVal)) :
    ∀ (fids : List JVal) (o : List (String × JVal)) (out : JVal),
      resolveEmp m fids (.obj o) = .ok out → ∃ o2, out = .obj o2 := by
  intro fids
  induction fids with
  | nil =>
      intro o out h
      simp only [resolveEmp] at h
      injection h with h
      exact ⟨o, h.symm⟩
  | cons fid0 rest ih =>
      intro o out h
      simp only [resolveEmp] at h
      split at h
      · next e he => exact Except.noConfusion h
      · next e1 he =>
          obtain ⟨fs, hfs, hcase⟩ := resolveField_ok_inversion m fid0 _ e1 he
          rcases hcase with ⟨_, rfl⟩ | ⟨cat, fname, o3, _, hemp, rfl⟩
          · exact ih o out h
          · injection hemp with hemp
            subst hemp
            exact ih _ out h

theorem resolveEmp_nonobj (m : List (String × JVal)) :
    ∀ (fids : List JVal) (emp out : JVal), (∀ o, emp ≠ .obj o) →
      resolveEmp m fids emp = .ok out → out = emp := by
  intro fids
  induction fids with
  | nil =>
      intro emp out hno h
      simp only [resolveEmp] at h
      injection h with h
      exact h.symm
  | cons fid0 rest ih =>
      intro emp out hno h
      simp only [resolveEmp] at h
      split at h
      · next e he => exact Except.noConfusion h
      · next e1 he =>
          obtain ⟨fs, hfs, hcase⟩ := resolveField_ok_inversion m fid0 emp e1 he
          rcases hcase with ⟨_, rfl⟩ | ⟨cat, fname, o3, _, hemp, rfl⟩
          · exact ih _ out hno h
          · exact absurd hemp (hno o3)

theorem resolveEmp_pres (m : List (String × JVal)) (hm : noSelfKeys m) :
    ∀ (fids : List JVal) (emp out : JVal) (c f : String),
      resolveEmp m fids emp = .ok out → locOK m emp c f → locOK m out c f := by
  intro fids
  induction fids with
  | nil =>
      intro emp out c f h hloc
      simp only [resolveEmp] at h
      injection h with h
      rw [← h]
      exact hloc
  | cons fid0 rest ih =>
      intro emp out c f h hloc
      simp only [resolveEmp] at h
      split at h
      · next e he => exact Except.noConfusion h
      · next e1 he =>
          exact ih e1 out c f h (resolveField_pres m fid0 emp e1 c f hm he hloc)

theorem resolveEmp_own (m : List (String × JVal)) (hm : noSelfKeys m) :
    ∀ (fids : List JVal) (emp out : JVal),
      resolveEmp m fids emp = .ok out →
      ∀ fid ∈ fids, ∀ fs cat fname, fid = .str fs → splitDot fs = [cat, fname] →
        locOK m out cat fname ∧ locOK m out ("/" ++ cat ++ "/" ++ fname) "value" := by
  intro fids
  induction fids with
  | nil => intro emp out h fid hmem; cases hmem
  | cons fid0 rest ih =>
      intro emp out h fid hmem fs cat fname hfid hsplit
      simp only [resolveEmp] at h
      split at h
      · next e he => exact Except.noConfusion h
      · next e1 he =>
          cases hmem with
          | head =>
              subst hfid
              obtain ⟨h1, h2⟩ := resolveField_own m fs cat fname emp e1 hm he hsplit
              exact ⟨resolveEmp_pres m hm rest e1 out cat fname h h1,
                     resolveEmp_pres m hm rest e1 out _ "value" h h2⟩
          | tail _ hmem2 => exact ih e1 out h fid hmem2 fs cat fname hfid hsplit

theorem resolveEmp_noop (m : List (String × JVal)) (hm : noSelfKeys m) :
    ∀ (fids : List JVal) (o2 : List (String × JVal)),
      (∀ fid ∈ fids, ∃ fs, fid = .str fs) →
      (∀ fid ∈ fids, ∀ fs cat fname, fid = .str fs → splitDot fs = [cat, fname] →
        locOK m (.obj o2) cat fname ∧
        locOK m (.obj o2) ("/" ++ cat ++ "/" ++ fname) "value") →
      resolveEmp m fids (.obj o2) = .ok (.obj o2) := by
  intro fids
  induction fids with
  | nil => intro o2 _ _; rfl
  | cons fid0 rest ih =>
      intro o2 hstr hlocs
      obtain ⟨fs, rfl⟩ := hstr fid0 (List.mem_cons_self fid0 rest)
      have hstep : resolveField m (.str fs) (.obj o2) = .ok (.obj o2) := by
        cases hsp : splitDot fs with
        | nil => exact resolveField_skip m fs _ (by rw [hsp]; simp)
        | cons a t =>
            cases t with
            | nil => exact resolveField_skip m fs _ (by rw [hsp]; simp)
            | cons b t2 =>
                cases t2 with
                | nil =>
                    obtain ⟨h1, h2⟩ := hlocs (.str fs) (List.mem_cons_self _ _)
                      fs a b rfl hsp
                    exact resolveField_noop m fs a b o2 hsp h1 h2
                | cons c t3 => exact resolveField_skip m fs _ (by rw [hsp]; simp)
      simp only [resolveEmp, hstep]
      exact ih o2 (fun fid hmem => hstr fid (List.mem_cons_of_mem _ hmem))
        (fun fid hmem => hlocs fid (List.mem_cons_of_mem _ hmem))

theorem resolveEmp_idem (m : List (String × JVal)) (hm : noSelfKeys m)
    (fids : List JVal) (emp out : JVal) (h : resolveEmp m fids emp = .ok out) :
    resolveEmp m fids out = .ok out := by
  cases emp with
  | obj o =>
      obtain ⟨o2, rfl⟩ := resolveEmp_obj m fids o out h
      exact resolveEmp_noop m hm fids o2
        (resolveEmp_ok_str m fids _ _ h)
        (fun fid hmem fs cat fname hfid hsplit =>
          resolveEmp_own m hm fids _ _ h fid hmem fs cat fname hfid hsplit)
  | null =>
      have := resolveEmp_nonobj m fids _ out (fun o hx => JVal.noConfusion hx) h
      subst this
      exact h
  | bool b =>
      have := resolveEmp_nonobj m fids _ out (fun o hx => JVal.noConfusion hx) h
      subst this
      exact h
  | num n =>
      have := resolveEmp_nonobj m fids _ out (fun o hx => JVal.noConfusion hx) h
      subst this
      exact h
  | str s2 =>
      have := resolveEmp_nonobj m fids _ out (fun o hx => JVal.noConfusion hx) h
      subst this
      exact h
  | arr l =>
      have := resolveEmp_nonobj m fids _ out (fun o hx => JVal.noConfusion hx) h
      subst this
      exact h

theorem resolveEmps_idem (m : List (String × JVal)) (hm : noSelfKeys m)
    (fids : List JVal) :
    ∀ (l l2 : List JVal), resolveEmps m fids l = .ok l2 →
      resolveEmps m fids l2 = .ok l2 := by
  intro l
  induction l with
  | nil =>
      intro l2 h
      simp only [resolveEmps] at h
      injection h with h
      subst h
      rfl
  | cons e rest ih =>
      intro l2 h
      simp only [resolveEmps] at h
      split at h
      · next er he => exact Except.noConfusion h
      · next e2 he =>
          split at h
          · next er he2 => exact Except.noConfusion h
          · next l3 he2 =>
              injection h with h
              subst h
              have h1 : resolveEmp m fids e2 = .ok e2 := resolveEmp_idem m hm fids e e2 he
              have h2 : resolveEmps m fids l3 = .ok l3 := ih l3 he2
              simp only [resolveEmps, h1, h2]

theorem resolveEmps_isEmpty (m : List (String × JVal)) (fids : List JVal) :
    ∀ (l l2 : List JVal), resolveEmps m fids l = .ok l2 → l2.isEmpty = l.isEmpty := by
  intro l
  induction l with
  | nil =>
      intro l2 h
      simp only [resolveEmps] at h
      injection h with h
      subst h
      rfl
  | cons e rest ih =>
      intro l2 h
      simp only [resolveEmps] at h
      split at h
      · next er he => exact Except.noConfusion h
      · next e2 he =>
          split at h
          · next er he2 => exact Except.noConfusion h
          · next l3 he2 =>
              injection h with h
              subst h
              rfl

theorem buildIdToDisplay_restart (net : Net) :
    ∀ (entries : List (JVal × JVal)) (s s2 : CacheState) (m r : List (String × JVal)),
      buildIdToDisplay net s m entries = (s2, .ok r) →
      s2.fieldMetadata = s.fieldMetadata ∧
      (∀ k v, lookupJ s.namedLists k = some v → lookupJ s2.namedLists k = some v) ∧
      buildIdToDisplay net s2 m entries = (s2, .ok r) := by
  intro entries
  induction entries with
  | nil =>
      intro s s2 m r h
      simp only [buildIdToDisplay] at h
      simp only [Prod.mk.injEq] at h
      obtain ⟨rfl, h2⟩ := h
      injection h2 with h2
      subst h2
      exact ⟨rfl, fun k v hk => hk, rfl⟩
  | cons p rest ih =>
      obtain ⟨fid, lid⟩ := p
      intro s s2 m r h
      simp only [buildIdToDisplay] at h
      rcases hg : get_named_list net s lid with ⟨s1, listData, n⟩
      rw [hg] at h
      obtain ⟨hpop, hfm, hpres, _⟩ := get_named_list_spec net s s1 lid listData n hg
      split at h
      · next e hpg =>
          simp only [Prod.mk.injEq] at h
          obtain ⟨rfl, h2⟩ := h
          exact Except.noConfusion h2
      · next values hpg =>
          split at h
          · next e hit =>
              simp only [Prod.mk.injEq] at h
              obtain ⟨rfl, h2⟩ := h
              exact Except.noConfusion h2
          · next items hit =>
              split at h
              · next e hadd =>
                  simp only [Prod.mk.injEq] at h
                  obtain ⟨rfl, h2⟩ := h
                  exact Except.noConfusion h2
              · next m2 hadd =>
                  obtain ⟨ihfm, ihpres, ihrun⟩ := ih s1 s2 m2 r h
                  refine ⟨by rw [ihfm, hfm], fun k v hk => ihpres k v (hpres k v hk), ?_⟩
                  have hhit : lookupJ s2.namedLists lid = some listData :=
                    ihpres lid listData hpop
                  simp only [buildIdToDisplay, get_named_list_hit net s2 lid listData hhit,
                    hpg, hit, hadd]
                  exact ihrun

/-- Claim C4 (amended): the Value Resolver is idempotent provided no display
value in the id-to-display mapping built for the run is itself (stringified)
one of the mapping's keys: if a first application succeeds, applying
`_resolve_list_values` again to its output, with the same requested fields
and the caches as left by the first run, returns the same state and the
same records.  (Without the proviso a second application can rewrite again;
see the counterexample.) -/
theorem claim4_resolver_idempotent_amended (net : Net) (s s1 : CacheState)
    (emps out : JVal) (req : List JVal)
    (hrun : resolve_list_values net s emps req = (s1, .ok out))
    (hC : ∀ s2 fm n lfm s3 r,
      get_field_metadata net s = (s2, fm, n) →
      buildListFieldMap fm req = .ok lfm →
      buildIdToDisplay net s2 [] lfm = (s3, .ok r) → noSelfKeys r) :
    resolve_list_values net s1 out req = (s1, .ok out) := by
  by_cases h0 : (!truthy emps || req.isEmpty) = true
  · rw [resolve_list_values, if_pos h0] at hrun
    simp only [Prod.mk.injEq] at hrun
    obtain ⟨rfl, hout⟩ := hrun
    injection hout with hout
    subst hout
    rw [resolve_list_values, if_pos h0]
  · rw [resolve_list_values, if_neg h0] at hrun
    split at hrun
    next s1' fm nf hgfm =>
    obtain ⟨hnlx, _, hfmv⟩ := get_field_metadata_spec net s s1' fm nf hgfm
    obtain ⟨na, hretryA⟩ := get_field_metadata_restart net s s1' fm nf hgfm s1' rfl
    by_cases hfm : truthy fm = true
    case neg =>
      rw [if_pos (by simpa using hfm)] at hrun
      simp only [Prod.mk.injEq] at hrun
      obtain ⟨rfl, hout⟩ := hrun
      injection hout with hout
      subst hout
      simp only [resolve_list_values, if_neg h0, hretryA]
      rw [if_pos (by simpa using hfm)]
    case pos =>
      rw [if_neg (not_not_intro hfm)] at hrun
      split at hrun
      · next e hblf =>
          simp only [Prod.mk.injEq] at hrun
          obtain ⟨rfl, hout⟩ := hrun
          exact Except.noConfusion hout
      · next lfm hblf =>
          by_cases hlfm : lfm.isEmpty = true
          · rw [if_pos hlfm] at hrun
            simp only [Prod.mk.injEq] at hrun
            obtain ⟨rfl, hout⟩ := hrun
            injection hout with hout
            subst hout
            simp only [resolve_list_values, if_neg h0, hretryA]
            rw [if_neg (not_not_intro hfm)]
            simp only [hblf, if_pos hlfm]
          · rw [if_neg hlfm] at hrun
            split at hrun
            · next s2 e hb2d =>
                simp only [Prod.mk.injEq] at hrun
                obtain ⟨rfl, hout⟩ := hrun
                exact Except.noConfusion hout
            · next s2 itd hb2d =>
                obtain ⟨ihfm, ihpres, ihrun⟩ :=
                  buildIdToDisplay_restart net lfm s1' s2 [] itd hb2d
                have hm : noSelfKeys itd := hC s1' fm nf lfm s2 itd hgfm hblf hb2d
                by_cases hitd : itd.isEmpty = true
                · rw [if_pos hitd] at hrun
                  simp only [Prod.mk.injEq] at hrun
                  obtain ⟨rfl, hout⟩ := hrun
                  injection hout with hout
                  subst hout
                  obtain ⟨nb, hretryB⟩ :=
                    get_field_metadata_restart net s s1' fm nf hgfm s2 ihfm
                  simp only [resolve_list_values, if_neg h0, hretryB]
                  rw [if_neg (not_not_intro hfm)]
                  simp only [hblf, if_neg hlfm, ihrun, if_pos hitd]
                · rw [if_neg hitd] at hrun
                  split at hrun
                  · next e hiter =>
                      simp only [Prod.mk.injEq] at hrun
                      obtain ⟨rfl, hout⟩ := hrun
                      exact Except.noConfusion hout
                  · next l hiter =>
                      split at hrun
                      · next e hremps =>
                          simp only [Prod.mk.injEq] at hrun
                          obtain ⟨rfl, hout⟩ := hrun
                          exact Except.noConfusion hout
                      · next l2 hremps =>
                          have hl2e : l2.isEmpty = l.isEmpty :=
                            resolveEmps_isEmpty itd _ l l2 hremps
                          split at hrun
                          · next elems =>
                              simp only [Prod.mk.injEq] at hrun
                              obtain ⟨rfl, hout⟩ := hrun
                              injection hout with hout
                              subst hout
                              have hle : l = elems := by
                                simp only [pyIter] at hiter
                                injection hiter with h2
                                exact h2.symm
                              subst hle
                              have htru : truthy (JVal.arr l) = true := by
                                cases htr : truthy (JVal.arr l)
                                · exfalso
                                  apply h0
                                  rw [htr]
                                  rfl
                                · rfl
                              have hl2 : truthy (JVal.arr l2) = true := by
                                simp only [truthy] at htru ⊢
                                rw [hl2e]
                                exact htru
                              have hreq : req.isEmpty = false := by
                                cases hr : req.isEmpty
                                · rfl
                                · exfalso
                                  apply h0
                                  rw [hr]
                                  simp
                              have h0b : ¬(!truthy (JVal.arr l2) || req.isEmpty) = true := by
                                rw [hl2, hreq]
                                simp
                              obtain ⟨nb, hretryB⟩ :=
                                get_field_metadata_restart net s s1' fm nf hgfm s2 ihfm
                              have hremps2 := resolveEmps_idem itd hm _ l l2 hremps
                              simp only [resolve_list_values, if_neg h0b, hretryB]
                              rw [if_neg (not_not_intro hfm)]
                              simp only [hblf, if_neg hlfm, ihrun, if_neg hitd]
                              have hiter2 : pyIter (JVal.arr l2) = .ok l2 := rfl
                              simp only [hiter2, hremps2]
                          · next hne =>
                              simp only [Prod.mk.injEq] at hrun
                              obtain ⟨rfl, hout⟩ := hrun
                              injection hout with hout
                              subst hout
                              obtain ⟨nb, hretryB⟩ :=
                                get_field_metadata_restart net s s1' fm nf hgfm s2 ihfm
                              simp only [resolve_list_values, if_neg h0, hretryB]
                              rw [if_neg (not_not_intro hfm)]
                              simp only [hblf, if_neg hlfm, ihrun, if_neg hitd, hiter,
                                hremps]

/-- Claim C4 counterexample: with the named list mapping "1" -> "2" and
"2" -> "3" (a display value colliding with another item id), a second
application of the resolver rewrites again — `work.title` goes "1" -> "2" on
the first pass and "2" -> "3" on the second — so the resolver is not
idempotent as claimed. -/
theorem claim4_counterexample :
    (resolve_list_values netCollide initState empsCollide reqWorkTitle).2 =
      .ok (.arr [.obj [("work", .obj [("title", .str "2")])]]) ∧
    (resolve_list_values netCollide
        (resolve_list_values netCollide initState empsCollide reqWorkTitle).1
        (.arr [.obj [("work", .obj [("title", .str "2")])]]) reqWorkTitle).2 =
      .ok (.arr [.obj [("work", .obj [("title", .str "3")])]]) ∧
    JVal.arr [.obj [("work", .obj [("title", .str "3")])]] ≠
      JVal.arr [.obj [("work", .obj [("title", .str "2")])]] := by
  refine ⟨rfl, rfl, fun h => ?_⟩
  have hb := (jvalBeq_iff _ _).mpr h
  rw [show jvalBeq (JVal.arr [.obj [("work", .obj [("title", .str "3")])]])
      (JVal.arr [.obj [("work", .obj [("title", .str "2")])]]) = false from rfl] at hb
  exact Bool.noConfusion hb

/-- Claim C4 witness: on the well-behaved named list ("101" -> "CEO", no
display value is an id), re-running the resolver on its own output with the
caches left by the first run is the identity. -/
theorem claim4_witness :
    resolve_list_values netCEO
      (⟨metaWorkTitle, [(.str "L", listDataCEO)]⟩ : CacheState)
      (.arr [.obj [("work", .obj [("title", .str "CEO")])]]) reqWorkTitle =
    ((⟨metaWorkTitle, [(.str "L", listDataCEO)]⟩ : CacheState),
      .ok (.arr [.obj [("work", .obj [("title", .str "CEO")])]])) := by
  have hrun : resolve_list_values netCEO initState empsCEO reqWorkTitle =
      ((⟨metaWorkTitle, [(.str "L", listDataCEO)]⟩ : CacheState),
        .ok (.arr [.obj [("work", .obj [("title", .str "CEO")])]])) := rfl
  refine claim4_resolver_idempotent_amended netCEO initState _ empsCEO _ reqWorkTitle hrun ?_
  intro s2 fm n lfm s3 r h1 h2 h3
  have e1 : get_field_metadata netCEO initState =
      ((⟨metaWorkTitle, []⟩ : CacheState), metaWorkTitle, 1) := rfl
  rw [e1] at h1
  simp only [Prod.mk.injEq] at h1
  obtain ⟨rfl, rfl, rfl⟩ := h1
  have e2 : buildListFieldMap metaWorkTitle reqWorkTitle =
      .ok [(.str "work.title", .str "L")] := rfl
  rw [e2] at h2
  injection h2 with h2
  subst h2
  have e3 : buildIdToDisplay netCEO (⟨metaWorkTitle, []⟩ : CacheState) []
      [(.str "work.title", .str "L")] =
      ((⟨metaWorkTitle, [(.str "L", listDataCEO)]⟩ : CacheState),
        .ok [("101", .str "CEO")]) := rfl
  rw [e3] at h3
  simp only [Prod.mk.injEq] at h3
  obtain ⟨rfl, h3⟩ := h3
  injection h3 with h3
  subst h3
  intro p hp
  simp only [List.mem_singleton] at hp
  subst hp
  rfl

/-- Claim C2 counterexample: the field-schema cache is not monotonic as
claimed.  On a network whose response is HTTP 200 with JSON body null, the
fetched value is Python `None` itself, so the `is None` sentinel check
cannot distinguish the populated cache from an empty one: two field-schema
lookups from process start perform two remote calls, not at most one. -/
theorem claim2_counterexample :
    callsForKey netNullSchema initState .fieldMeta [.fieldMeta, .fieldMeta] = 2 ∧
    ¬ callsForKey netNullSchema initState .fieldMeta [.fieldMeta, .fieldMeta] ≤ 1 :=
  ⟨rfl, by decide⟩

/-- Claim C2 (amended): the named-list cache is monotonic exactly as
claimed — over any lookup sequence from process start, at most one remote
call occurs per distinct named-list id.  Once any key is populated (a
named-list id present in its cache after a successful or failed fetch, or a
field schema stored as a non-null value, including the `[]` cached by a
failed fetch), no later lookup for that key performs a remote call and the
entry is never evicted or overwritten.  The field-schema key satisfies the
at-most-one-call property only under the proviso that the fetch does not
return JSON null: a fetched null is stored as the `None` sentinel itself and
is refetched by every later lookup (see the counterexample). -/
theorem claim2_cache_monotonic_amended (net : Net) :
    (∀ (lid : JVal) (ops : List CacheOp),
      callsForKey net initState (.namedList lid) ops ≤ 1) ∧
    (∀ (k : CacheOp) (ops : List CacheOp) (s : CacheState) (v : JVal),
      keyEntry s k = some v →
      callsForKey net s k ops = 0 ∧ keyEntry (runOpsState net s ops) k = some v) ∧
    (hibob_api_call net "company/people/fields" none "GET" ≠ .ok .null →
      ∀ ops : List CacheOp, callsForKey net initState .fieldMeta ops ≤ 1) := by
  refine ⟨?_, ?_, ?_⟩
  · intro lid ops
    exact callsForKey_le_one_of net (.namedList lid)
      (runOp_populates_namedList net lid) ops initState
  · intro k ops s v h
    exact populated_no_calls net k ops s v h
  · intro hgood ops
    exact callsForKey_le_one_of net .fieldMeta
      (runOp_populates_fieldMeta net hgood) ops initState

theorem claim2_amended_witness :
    callsForKey netEmpty initState (.namedList (.str "L")) opsW ≤ 1 ∧
    (callsForKey netEmpty sPopW (.namedList (.str "L")) opsW = 0 ∧
      keyEntry (runOpsState netEmpty sPopW opsW) (.namedList (.str "L")) =
        some (.obj [])) ∧
    callsForKey netEmpty initState .fieldMeta opsW ≤ 1 := by
  obtain ⟨h1, h2, h3⟩ := claim2_cache_monotonic_amended netEmpty
  refine ⟨h1 (.str "L") opsW, h2 (.namedList (.str "L")) opsW sPopW (.obj []) rfl,
    h3 ?_ opsW⟩
  intro hx
  have hx2 : (Except.ok (JVal.obj [("values", JVal.arr [])]) : Except PyErr JVal) =
      .ok .null := hx
  injection hx2 with hx3
  exact JVal.noConfusion hx3

/-- Claim C1 counterexample: on a network answering HTTP 500, the direct
query path of `hibob_people_search` surfaces the remote failure as the
raised `HTTPError` itself — not as a descriptive error string returned as
the result — so the claim as stated is false. -/
theorem claim1_counterexample :
    (hibob_people_search net500 initState none none none).2 =
      .error (.httpError 500) := rfl

/-- Claim C1 (amended): metadata-path failures never raise — a failed
field-schema fetch caches and returns `[]` and a failed named-list fetch
caches and returns `{}` — but on the direct query path a remote failure
propagates out of `hibob_people_search` as the raised exception; conversion
to a descriptive text result, if any, happens in the external tool-transport
layer, not in this code. -/
theorem claim1_error_handling_amended (net : Net) (s : CacheState) (er : PyErr) :
    (s.fieldMetadata = .null →
      hibob_api_call net "company/people/fields" none "GET" = .error er →
      get_field_metadata net s = (⟨.arr [], s.namedLists⟩, .arr [], 1)) ∧
    (∀ lid, lookupJ s.namedLists lid = none →
      hibob_api_call net ("company/named-lists/" ++ pyStr lid) none "GET" = .error er →
      get_named_list net s lid =
        (⟨s.fieldMetadata, setJ s.namedLists lid (.obj [])⟩, .obj [], 1)) ∧
    (∀ fields filters hr,
      hibob_api_call net "people/search" (some (searchBody fields filters)) "POST" =
        .error er →
      hibob_people_search net s fields filters hr = (s, .error er)) := by
  refine ⟨?_, ?_, ?_⟩
  · intro hmiss hfail
    unfold get_field_metadata
    rw [hmiss, if_pos (show jvalIsNull JVal.null = true from rfl), hfail]
  · intro lid hmiss hfail
    simp only [get_named_list, hmiss, hfail]
  · intro fields filters hr hfail
    simp only [hibob_people_search, hfail]

theorem claim1_amended_witness :
    get_field_metadata net500 initState = (⟨.arr [], []⟩, .arr [], 1) ∧
    get_named_list net500 initState (.str "L") =
      (⟨.null, [(.str "L", .obj [])]⟩, .obj [], 1) ∧
    hibob_people_search net500 initState none none none =
      (initState, .error (.httpError 500)) := by
  obtain ⟨h1, h2, h3⟩ := claim1_error_handling_amended net500 initState (.httpError 500)
  exact ⟨h1 rfl rfl, h2 (.str "L") rfl rfl, h3 none none none rfl⟩

/-- Claim C6: a requested field-id that does not split into exactly two
dot-separated segments (a bare name, or three or more segments) is never
resolved: the per-field rewrite leaves every record exactly as it was,
whatever the id-to-display mapping contains and whatever raw values the
record holds. -/
theorem claim6_two_segment_restriction (m : List (String × JVal)) (fs : String)
    (hlen : (splitDot fs).length ≠ 2) :
    ∀ emp, resolveField m (.str fs) emp = .ok emp :=
  fun emp => resolveField_skip m fs emp hlen

theorem claim6_witness :
    resolveField [("101", .str "CEO")] (.str "work.title.extra")
      (.obj [("work", .obj [("title", .obj [("extra", .str "101")])])]) =
      .ok (.obj [("work", .obj [("title", .obj [("extra", .str "101")])])]) ∧
    resolveField [("101", .str "CEO")] (.str "work")
      (.obj [("work", .str "101")]) = .ok (.obj [("work", .str "101")]) :=
  ⟨claim6_two_segment_restriction [("101", .str "CEO")] "work.title.extra"
      (by decide) (.obj [("work", .obj [("title", .obj [("extra", .str "101")])])]),
   claim6_two_segment_restriction [("101", .str "CEO")] "work"
      (by decide) (.obj [("work", .str "101")])⟩

/-- Claim C5 counterexample: the resolver can raise — with a well-formed
schema and named list, a non-dict element in the employee collection makes
`emp.get(cat)` raise `AttributeError`, which escapes `_resolve_list_values`,
so "for every input the Value Resolver never raises" is false. -/
theorem claim5_counterexample :
    (resolve_list_values netCEO initState (.arr [.str "x"]) reqWorkTitle).2 =
      .error .attributeError := rfl

/-- Claim C5 (amended): remote-fetch failures inside the resolver degrade
without raising — if the field-schema fetch fails the records are returned
unchanged (the failure is cached as `[]`, which is falsy), and a failed
named-list fetch caches `{}` and contributes no entries to the id-to-display
mapping, so the affected fields are simply not resolved — but the resolver
is not raise-free for every input: malformed shapes such as a non-dict
employee element raise (see the counterexample). -/
theorem claim5_failure_degradation_amended (net : Net) (s : CacheState)
    (employees : JVal) (req : List JVal) (er : PyErr) :
    (s.fieldMetadata = .null →
      hibob_api_call net "company/people/fields" none "GET" = .error er →
      (resolve_list_values net s employees req).2 = .ok employees) ∧
    (∀ (fid lid : JVal) (m : List (String × JVal)),
      lookupJ s.namedLists lid = none →
      hibob_api_call net ("company/named-lists/" ++ pyStr lid) none "GET" = .error er →
      buildIdToDisplay net s m [(fid, lid)] =
        (⟨s.fieldMetadata, setJ s.namedLists lid (.obj [])⟩, .ok m)) := by
  constructor
  · intro hmiss hfail
    by_cases h0 : (!truthy employees || req.isEmpty) = true
    · rw [resolve_list_values, if_pos h0]
    · have hg : get_field_metadata net s =
          (⟨.arr [], s.namedLists⟩, .arr [], 1) := by
        unfold get_field_metadata
        rw [hmiss, if_pos (show jvalIsNull JVal.null = true from rfl), hfail]
      rw [resolve_list_values, if_neg h0]
      simp only [hg]
      rw [if_pos (show ¬truthy (JVal.arr []) = true by decide)]
  · intro fid lid m hmiss hfail
    have hg : get_named_list net s lid =
        (⟨s.fieldMetadata, setJ s.namedLists lid (.obj [])⟩, .obj [], 1) := by
      simp only [get_named_list, hmiss, hfail]
    simp only [buildIdToDisplay, hg]
    rfl

theorem claim5_amended_witness :
    (resolve_list_values net500 initState
        (.arr [.obj [("work", .obj [("title", .str "1")])]]) reqWorkTitle).2 =
      .ok (.arr [.obj [("work", .obj [("title", .str "1")])]]) ∧
    buildIdToDisplay net500 initState [] [(.str "work.title", .str "L")] =
      (⟨.null, [(.str "L", .obj [])]⟩, .ok []) := by
  obtain ⟨h1, h2⟩ := claim5_failure_degradation_amended net500 initState
    (.arr [.obj [("work", .obj [("title", .str "1")])]]) reqWorkTitle (.httpError 500)
  exact ⟨h1 rfl rfl, h2 (.str "work.title") (.str "L") [] rfl rfl⟩

theorem slash_key_ne_cat (cat fname : String) : "/" ++ cat ++ "/" ++ fname ≠ cat := by
  intro h
  have hl := congrArg String.length h
  simp only [String.length_append] at hl
  have h1 : ("/" : String).length = 1 := rfl
  rw [h1] at hl
  omega

/-- Claim C3: dual-encoding resolution.  For a two-segment field-id, the
per-field rewrite of `_resolve_list_values` checks and rewrites the nested
category encoding (`emp[cat][fname]`) and the slash-prefixed flat encoding
(`emp["/cat/fname"]["value"]`) independently: when both carry a mapped id
both are rewritten to their display values, when only one is present only it
is rewritten, when neither is present the record is unchanged, and no other
location of the record is touched. -/
theorem claim3_dual_encoding (m : List (String × JVal)) (fs cat fname : String)
    (o : List (String × JVal)) (hsplit : splitDot fs = [cat, fname]) :
    (∀ w sv v u d e,
      lookupS o cat = some (.obj w) → lookupS w fname = some v →
      lookupS m (pyStr v) = some d →
      lookupS o ("/" ++ cat ++ "/" ++ fname) = some (.obj sv) →
      lookupS sv "value" = some u → lookupS m (pyStr u) = some e →
      ∃ o2, resolveField m (.str fs) (.obj o) = .ok (.obj o2) ∧
        innerVal o2 cat fname = some d ∧
        innerVal o2 ("/" ++ cat ++ "/" ++ fname) "value" = some e ∧
        (∀ c f, ¬(c = cat ∧ f = fname) →
          ¬(c = "/" ++ cat ++ "/" ++ fname ∧ f = "value") →
          innerVal o2 c f = innerVal o c f)) ∧
    (innerVal o cat fname = none →
      innerVal o ("/" ++ cat ++ "/" ++ fname) "value" = none →
      resolveField m (.str fs) (.obj o) = .ok (.obj o)) ∧
    (∀ w v d, innerVal o ("/" ++ cat ++ "/" ++ fname) "value" = none →
      lookupS o cat = some (.obj w) → lookupS w fname = some v →
      lookupS m (pyStr v) = some d →
      ∃ o2, resolveField m (.str fs) (.obj o) = .ok (.obj o2) ∧
        innerVal o2 cat fname = some d ∧
        innerVal o2 ("/" ++ cat ++ "/" ++ fname) "value" = none ∧
        (∀ c f, ¬(c = cat ∧ f = fname) → innerVal o2 c f = innerVal o c f)) ∧
    (∀ sv u e, innerVal o cat fname = none →
      lookupS o ("/" ++ cat ++ "/" ++ fname) = some (.obj sv) →
      lookupS sv "value" = some u → lookupS m (pyStr u) = some e →
      ∃ o2, resolveField m (.str fs) (.obj o) = .ok (.obj o2) ∧
        innerVal o2 ("/" ++ cat ++ "/" ++ fname) "value" = some e ∧
        innerVal o2 cat fname = none ∧
        (∀ c f, ¬(c = "/" ++ cat ++ "/" ++ fname ∧ f = "value") →
          innerVal o2 c f = innerVal o c f)) := by
  have hne := slash_key_ne_cat cat fname
  refine ⟨?_, ?_, ?_, ?_⟩
  · intro w sv v u d e hKw hFv hdv hKs hFu hdu
    have hn : nestedStep m cat fname o = setS o cat (.obj (setS w fname d)) :=
      fieldWriteStep_write m cat fname o w v d hKw hFv hdv
    have hKs1 : lookupS (setS o cat (.obj (setS w fname d)))
        ("/" ++ cat ++ "/" ++ fname) = some (.obj sv) := by
      rw [lookupS_setS_ne o cat _ _ hne]
      exact hKs
    have hs : slashStep m cat fname (setS o cat (.obj (setS w fname d))) =
        setS (setS o cat (.obj (setS w fname d))) ("/" ++ cat ++ "/" ++ fname)
          (.obj (setS sv "value" e)) :=
      fieldWriteStep_write m _ _ _ sv u e hKs1 hFu hdu
    refine ⟨_, by rw [resolveField_str m fs cat fname o hsplit, hn, hs], ?_, ?_, ?_⟩
    · rw [innerVal_write _ sv _ _ e hKs1 cat fname,
        if_neg (fun hx => hne hx.1.symm),
        innerVal_write o w cat fname d hKw cat fname, if_pos ⟨rfl, rfl⟩]
    · rw [innerVal_write _ sv _ _ e hKs1 _ "value", if_pos ⟨rfl, rfl⟩]
    · intro c f hc hs2
      rw [innerVal_write _ sv _ _ e hKs1 c f, if_neg hs2,
        innerVal_write o w cat fname d hKw c f, if_neg hc]
  · intro hn hs
    have h1 : nestedStep m cat fname o = o := fieldWriteStep_skip m cat fname o hn
    have h2 : slashStep m cat fname o = o := fieldWriteStep_skip m _ "value" o hs
    rw [resolveField_str m fs cat fname o hsplit, h1, h2]
  · intro w v d hsnone hKw hFv hdv
    have hn : nestedStep m cat fname o = setS o cat (.obj (setS w fname d)) :=
      fieldWriteStep_write m cat fname o w v d hKw hFv hdv
    have hs1 : innerVal (setS o cat (.obj (setS w fname d)))
        ("/" ++ cat ++ "/" ++ fname) "value" = none := by
      rw [innerVal_write o w cat fname d hKw _ "value",
        if_neg (fun hx => hne hx.1)]
      exact hsnone
    have hs : slashStep m cat fname (setS o cat (.obj (setS w fname d))) =
        setS o cat (.obj (setS w fname d)) :=
      fieldWriteStep_skip m _ "value" _ hs1
    refine ⟨_, by rw [resolveField_str m fs cat fname o hsplit, hn, hs], ?_, hs1, ?_⟩
    · rw [innerVal_write o w cat fname d hKw cat fname, if_pos ⟨rfl, rfl⟩]
    · intro c f hc
      rw [innerVal_write o w cat fname d hKw c f, if_neg hc]
  · intro sv u e hnnone hKs hFu hdu
    have hn : nestedStep m cat fname o = o :=
      fieldWriteStep_skip m cat fname o hnnone
    have hs : slashStep m cat fname o =
        setS o ("/" ++ cat ++ "/" ++ fname) (.obj (setS sv "value" e)) :=
      fieldWriteStep_write m _ _ o sv u e hKs hFu hdu
    refine ⟨_, by rw [resolveField_str m fs cat fname o hsplit, hn, hs], ?_, ?_, ?_⟩
    · rw [innerVal_write o sv _ "value" e hKs _ "value", if_pos ⟨rfl, rfl⟩]
    · rw [innerVal_write o sv _ "value" e hKs cat fname,
        if_neg (fun hx => hne hx.1.symm)]
      exact hnnone
    · intro c f hc
      rw [innerVal_write o sv _ "value" e hKs c f, if_neg hc]

theorem claim3_witness :
    ∃ o2, resolveField [("101", .str "CEO")] (.str "work.title")
        (.obj [("work", .obj [("title", .str "101")]),
               ("/work/title", .obj [("value", .str "101")])]) = .ok (.obj o2) ∧
      innerVal o2 "work" "title" = some (.str "CEO") ∧
      innerVal o2 ("/" ++ "work" ++ "/" ++ "title") "value" = some (.str "CEO") ∧
      (∀ c f, ¬(c = "work" ∧ f = "title") →
        ¬(c = "/" ++ "work" ++ "/" ++ "title" ∧ f = "value") →
        innerVal o2 c f =
          innerVal [("work", .obj [("title", .str "101")]),
                    ("/work/title", .obj [("value", .str "101")])] c f) :=
  (claim3_dual_encoding [("101", .str "CEO")] "work.title" "work" "title"
      [("work", .obj [("title", .str "101")]),
       ("/work/title", .obj [("value", .str "101")])] (by decide)).1
    [("title", .str "101")] [("value", .str "101")]
    (.str "101") (.str "101") (.str "CEO") (.str "CEO")
    rfl rfl rfl rfl rfl rfl

theorem itemContribution_eq (io : List (String × JVal)) :
    itemContribution (.obj io) =
      (if itemIdStr io ≠ "" ∧ truthy (itemDisplay io) = true
       then .ok (some (itemIdStr io, itemDisplay io)) else .ok none) := rfl

theorem itemContribution_some_iff (io : List (String × JVal)) (k : String) (d : JVal) :
    itemContribution (.obj io) = .ok (some (k, d)) ↔
      (k = itemIdStr io ∧ k ≠ "" ∧ d = itemDisplay io ∧ truthy d = true) := by
  rw [itemContribution_eq]
  by_cases h : itemIdStr io ≠ "" ∧ truthy (itemDisplay io) = true
  · rw [if_pos h]
    constructor
    · intro he
      injection he with he
      injection he with he
      injection he with he1 he2
      subst he1
      subst he2
      exact ⟨rfl, h.1, rfl, h.2⟩
    · intro ⟨h1, _, h3, _⟩
      subst h1
      subst h3
      rfl
  · rw [if_neg h]
    constructor
    · intro he
      injection he with he
      exact Option.noConfusion he
    · intro ⟨h1, h2, h3, h4⟩
      subst h1
      subst h3
      exact absurd ⟨h2, h4⟩ h

theorem itemContribution_ok_shape (item : JVal) (c : Option (String × JVal))
    (h : itemContribution item = .ok c) :
    ∃ io, item = .obj io ∧
      ((itemIdStr io ≠ "" ∧ truthy (itemDisplay io) = true ∧
        c = some (itemIdStr io, itemDisplay io)) ∨
       (¬(itemIdStr io ≠ "" ∧ truthy (itemDisplay io) = true) ∧ c = none)) := by
  cases item with
  | obj io =>
      refine ⟨io, rfl, ?_⟩
      rw [itemContribution_eq] at h
      by_cases hq : itemIdStr io ≠ "" ∧ truthy (itemDisplay io) = true
      · rw [if_pos hq] at h
        injection h with h
        exact Or.inl ⟨hq.1, hq.2, h.symm⟩
      · rw [if_neg hq] at h
        injection h with h
        exact Or.inr ⟨hq, h.symm⟩
  | null => exact Except.noConfusion h
  | bool b => exact Except.noConfusion h
  | num n => exact Except.noConfusion h
  | str s2 => exact Except.noConfusion h
  | arr l => exact Except.noConfusion h

theorem addListItems_mem (key : String) :
    ∀ (items : List JVal) (m r : List (String × JVal)),
      addListItems m items = .ok r →
      (lookupS r key ≠ none ↔
        (lookupS m key ≠ none ∨
         ∃ item ∈ items, ∃ io, item = .obj io ∧
           itemIdStr io = key ∧ key ≠ "" ∧ truthy (itemDisplay io) = true)) := by
  intro items
  induction items with
  | nil =>
      intro m r h
      simp only [addListItems] at h
      injection h with h
      subst h
      simp
  | cons item rest ih =>
      intro m r h
      simp only [addListItems] at h
      split at h
      · next e he => exact Except.noConfusion h
      · next he =>
          obtain ⟨io, rfl, hshape⟩ := itemContribution_ok_shape item _ he
          rcases hshape with ⟨_, _, hc⟩ | ⟨hnq, _⟩
          · exact Option.noConfusion hc
          · rw [ih m r h]
            constructor
            · intro hc
              rcases hc with hc | hc
              · exact Or.inl hc
              · right
                obtain ⟨it2, hmem, rest2⟩ := hc
                exact ⟨it2, List.mem_cons_of_mem _ hmem, rest2⟩
            · intro hc
              rcases hc with hc | hc
              · exact Or.inl hc
              · obtain ⟨it2, hmem, io2, hit2, hid, hkey, hdisp⟩ := hc
                cases hmem with
                | head =>
                    exfalso
                    injection hit2 with hio
                    subst hio
                    rw [hid] at hnq
                    exact hnq ⟨hkey, hdisp⟩
                | tail _ hmem2 =>
                    exact Or.inr ⟨it2, hmem2, io2, hit2, hid, hkey, hdisp⟩
      · next k0 d0 he =>
          obtain ⟨io, rfl, hshape⟩ := itemContribution_ok_shape item _ he
          rcases hshape with ⟨hq1, hq2, hc⟩ | ⟨_, hc⟩
          · simp only [Option.some.injEq, Prod.mk.injEq] at hc
            obtain ⟨hc1, hc2⟩ := hc
            subst hc1
            subst hc2
            rw [ih (setS m (itemIdStr io) (itemDisplay io)) r h]
            constructor
            · intro hc
              rcases hc with hc | hc
              · by_cases hkk : key = itemIdStr io
                · subst hkk
                  right
                  exact ⟨.obj io, List.mem_cons_self _ _, io, rfl, rfl, hq1, hq2⟩
                · rw [lookupS_setS_ne m (itemIdStr io) key (itemDisplay io) hkk] at hc
                  exact Or.inl hc
              · right
                obtain ⟨it2, hmem, rest2⟩ := hc
                exact ⟨it2, List.mem_cons_of_mem _ hmem, rest2⟩
            · intro hc
              by_cases hkk : key = itemIdStr io
              · subst hkk
                left
                rw [lookupS_setS_self m (itemIdStr io) (itemDisplay io)]
                simp
              · rw [lookupS_setS_ne m (itemIdStr io) key (itemDisplay io) hkk]
                rcases hc with hc | hc
                · exact Or.inl hc
                · obtain ⟨it2, hmem, io2, hit2, hid, hkey, hdisp⟩ := hc
                  cases hmem with
                  | head =>
                      exfalso
                      injection hit2 with hio
                      subst hio
                      exact hkk hid.symm
                  | tail _ hmem2 =>
                      exact Or.inr ⟨it2, hmem2, io2, hit2, hid, hkey, hdisp⟩
          · exact Option.noConfusion hc

/-- Claim C7: an item of a fetched named list contributes an entry to the
id-to-display mapping if and only if its stringified id is non-empty and its
display value — the `"value"` attribute when truthy, otherwise the `"name"`
attribute — is truthy (non-empty); and a key is present in the mapping built
from a list of items exactly when it was already present or some item
qualifies with that stringified id. -/
theorem claim7_item_inclusion :
    (∀ (io : List (String × JVal)) (k : String) (d : JVal),
      itemContribution (.obj io) = .ok (some (k, d)) ↔
        (k = itemIdStr io ∧ k ≠ "" ∧ d = itemDisplay io ∧ truthy d = true)) ∧
    (∀ (key : String) (items : List JVal) (m r : List (String × JVal)),
      addListItems m items = .ok r →
      (lookupS r key ≠ none ↔
        (lookupS m key ≠ none ∨
         ∃ item ∈ items, ∃ io, item = .obj io ∧
           itemIdStr io = key ∧ key ≠ "" ∧ truthy (itemDisplay io) = true))) :=
  ⟨itemContribution_some_iff,
   fun key items m r h => addListItems_mem key items m r h⟩

theorem claim7_witness :
    (itemContribution (.obj [("id", .num 7), ("name", .str "Berlin")]) =
      .ok (some ("7", .str "Berlin")) ↔
      ("7" = itemIdStr [("id", .num 7), ("name", .str "Berlin")] ∧ "7" ≠ "" ∧
        JVal.str "Berlin" = itemDisplay [("id", .num 7), ("name", .str "Berlin")] ∧
        truthy (.str "Berlin") = true)) ∧
    (lookupS [("7", .str "Berlin")] "7" ≠ none ↔
      (lookupS ([] : List (String × JVal)) "7" ≠ none ∨
       ∃ item ∈ [JVal.obj [("id", .num 7), ("name", .str "Berlin")],
                 .obj [("id", .str ""), ("value", .str "ghost")],
                 .obj [("id", .str "8"), ("value", .str "")]], ∃ io,
         item = .obj io ∧ itemIdStr io = "7" ∧ "7" ≠ "" ∧
         truthy (itemDisplay io) = true)) :=
  ⟨(claim7_item_inclusion).1 [("id", .num 7), ("name", .str "Berlin")] "7" (.str "Berlin"),
   (claim7_item_inclusion).2 "7"
     [.obj [("id", .num 7), ("name", .str "Berlin")],
      .obj [("id", .str ""), ("value", .str "ghost")],
      .obj [("id", .str "8"), ("value", .str "")]]
     [] [("7", .str "Berlin")] rfl⟩

/-- Claim C8 (modelled from the spec, section 4.3 — the Employee Snapshot
Cache is absent from the source under src/): every snapshot returned to a
caller has age at most the configured TTL and is the one stored by the cache
at return time (a stale or missing snapshot is refreshed synchronously
before returning); two roster requests from a fresh cache separated by less
than the TTL perform exactly one remote fetch in total, and separated by
more than the TTL they perform two. -/
theorem claim8_snapshot_ttl (fetchRoster : Nat → List JVal) :
    (∀ (now : Nat) (c : SnapshotCache),
      now - (getRoster fetchRoster now c).1.lastFetch ≤ snapshot_ttl ∧
      (getRoster fetchRoster now c).1.snapshot =
        some (getRoster fetchRoster now c).2.1) ∧
    (∀ t0 t1 : Nat, t1 - t0 < snapshot_ttl →
      (getRoster fetchRoster t0 ⟨none, 0⟩).2.2 +
        (getRoster fetchRoster t1 (getRoster fetchRoster t0 ⟨none, 0⟩).1).2.2 = 1) ∧
    (∀ t0 t1 : Nat, snapshot_ttl < t1 - t0 →
      (getRoster fetchRoster t0 ⟨none, 0⟩).2.2 +
        (getRoster fetchRoster t1 (getRoster fetchRoster t0 ⟨none, 0⟩).1).2.2 = 2) := by
  refine ⟨?_, ?_, ?_⟩
  · intro now c
    cases hs : c.snapshot with
    | none => simp [getRoster, hs]
    | some snap =>
        by_cases hfresh : snapshot_ttl ≤ now - c.lastFetch
        · simp [getRoster, hs, hfresh]
        · have hlt : now - c.lastFetch < snapshot_ttl := Nat.lt_of_not_le hfresh
          simp only [getRoster, hs, if_neg hfresh]
          exact ⟨Nat.le_of_lt hlt, trivial⟩
  · intro t0 t1 hlt
    have h1 : getRoster fetchRoster t0 ⟨none, 0⟩ =
        (⟨some (fetchRoster t0), t0⟩, fetchRoster t0, 1) := rfl
    rw [h1]
    have hfresh : ¬ snapshot_ttl ≤ t1 - t0 := Nat.not_le_of_lt hlt
    simp [getRoster, hfresh]
  · intro t0 t1 hgt
    have h1 : getRoster fetchRoster t0 ⟨none, 0⟩ =
        (⟨some (fetchRoster t0), t0⟩, fetchRoster t0, 1) := rfl
    rw [h1]
    have hfresh : snapshot_ttl ≤ t1 - t0 := Nat.le_of_lt hgt
    simp [getRoster, hfresh]

theorem claim8_witness :
    (100 - (getRoster (fun _ => [JVal.str "alice"]) 100
        ⟨some [JVal.str "bob"], 50⟩).1.lastFetch ≤ snapshot_ttl ∧
      (getRoster (fun _ => [JVal.str "alice"]) 100
        ⟨some [JVal.str "bob"], 50⟩).1.snapshot =
        some (getRoster (fun _ => [JVal.str "alice"]) 100
          ⟨some [JVal.str "bob"], 50⟩).2.1) ∧
    (getRoster (fun _ => [JVal.str "alice"]) 0 ⟨none, 0⟩).2.2 +
      (getRoster (fun _ => [JVal.str "alice"]) 100
        (getRoster (fun _ => [JVal.str "alice"]) 0 ⟨none, 0⟩).1).2.2 = 1 ∧
    (getRoster (fun _ => [JVal.str "alice"]) 0 ⟨none, 0⟩).2.2 +
      (getRoster (fun _ => [JVal.str "alice"]) 400
        (getRoster (fun _ => [JVal.str "alice"]) 0 ⟨none, 0⟩).1).2.2 = 2 :=
  ⟨(claim8_snapshot_ttl (fun _ => [JVal.str "alice"])).1 100 ⟨some [JVal.str "bob"], 50⟩,
   (claim8_snapshot_ttl (fun _ => [JVal.str "alice"])).2.1 0 100 (by decide),
   (claim8_snapshot_ttl (fun _ => [JVal.str "alice"])).2.2 0 400 (by decide)⟩

theorem searchKey_binary (e : JVal) (k : Nat) (h : searchKey e = .ok k) :
    k = 0 ∨ k = 1 := by
  cases e with
  | obj o =>
      simp only [searchKey] at h
      split at h
      · split at h
        · injection h with h; exact Or.inl h.symm
        · injection h with h; exact Or.inl h.symm
        · injection h with h; exact Or.inr h.symm
      · injection h with h; exact Or.inr h.symm
  | null => exact Except.noConfusion h
  | bool b => exact Except.noConfusion h
  | num n => exact Except.noConfusion h
  | str s2 => exact Except.noConfusion h
  | arr l => exact Except.noConfusion h

theorem topLevel_of_key_zero (e : JVal) (h : searchKey e = .ok 0) :
    topLevel e = true := by
  simp only [topLevel, h]

theorem topLevel_of_key_one (e : JVal) (h : searchKey e = .ok 1) :
    topLevel e = false := by
  simp only [topLevel, h]

theorem insertByKey_front (x : JVal × Nat) (L : List (JVal × Nat))
    (h : ∀ y ∈ L, ¬(y.2 < x.2)) : insertByKey x L = x :: L := by
  cases L with
  | nil => rfl
  | cons y ys =>
      simp only [insertByKey, if_neg (h y (List.mem_cons_self y ys))]

theorem insertByKey_append (x : JVal × Nat) :
    ∀ (A B : List (JVal × Nat)), (∀ y ∈ A, y.2 < x.2) → (∀ y ∈ B, ¬(y.2 < x.2)) →
      insertByKey x (A ++ B) = A ++ x :: B := by
  intro A
  induction A with
  | nil => intro B _ hB; exact insertByKey_front x B hB
  | cons a A2 ih =>
      intro B hA hB
      simp only [List.cons_append, insertByKey,
        if_pos (hA a (List.mem_cons_self a A2))]
      show a :: insertByKey x (A2 ++ B) = a :: (A2 ++ x :: B)
      rw [ih B (fun y hy => hA y (List.mem_cons_of_mem a hy)) hB]

theorem isortByKey_binary :
    ∀ (l : List (JVal × Nat)), (∀ x ∈ l, x.2 = 0 ∨ x.2 = 1) →
      isortByKey l = l.filter (fun x => x.2 == 0) ++ l.filter (fun x => x.2 != 0) := by
  intro l
  induction l with
  | nil => intro _; rfl
  | cons x rest ih =>
      intro hbin
      have hrest := fun y hy => hbin y (List.mem_cons_of_mem x hy)
      simp only [isortByKey, ih hrest]
      rcases hbin x (List.mem_cons_self x rest) with hx | hx
      · rw [insertByKey_front x _ (fun y _ => by rw [hx]; exact Nat.not_lt_zero y.2)]
        simp [List.filter_cons, hx]
      · rw [insertByKey_append x _ _
            (fun y hy => by
              have := (List.mem_filter.mp hy).2
              have hy0 : y.2 = 0 := by simpa using this
              rw [hx, hy0]
              exact Nat.zero_lt_one)
            (fun y hy => by
              have hmem := (List.mem_filter.mp hy).1
              have hne : y.2 ≠ 0 := by simpa using (List.mem_filter.mp hy).2
              rcases hrest y hmem with h0 | h1
              · exact absurd h0 hne
              · rw [hx, h1]
                exact Nat.lt_irrefl 1)]
        simp [List.filter_cons, hx]

theorem keyedList_filters :
    ∀ (xs : List JVal) (kl : List (JVal × Nat)), keyedList xs = .ok kl →
      ((kl.filter (fun x => x.2 == 0)).map (fun p => p.1) =
          xs.filter (fun e => topLevel e) ∧
       (kl.filter (fun x => x.2 != 0)).map (fun p => p.1) =
          xs.filter (fun e => !topLevel e) ∧
       (∀ x ∈ kl, x.2 = 0 ∨ x.2 = 1)) := by
  intro xs
  induction xs with
  | nil =>
      intro kl h
      simp only [keyedList] at h
      injection h with h
      subst h
      exact ⟨rfl, rfl, fun x hx => absurd hx (List.not_mem_nil x)⟩
  | cons e rest ih =>
      intro kl h
      simp only [keyedList] at h
      split at h
      · next er he => exact Except.noConfusion h
      · next k hk =>
          split at h
          · next er he => exact Except.noConfusion h
          · next kl2 hkl2 =>
              injection h with h
              subst h
              obtain ⟨ih1, ih2, ihbin⟩ := ih kl2 hkl2
              rcases searchKey_binary e k hk with rfl | rfl
              · have ht := topLevel_of_key_zero e hk
                refine ⟨?_, ?_, ?_⟩
                · simp [List.filter_cons, ht, ih1]
                · simp [List.filter_cons, ht, ih2]
                · intro x hx
                  cases hx with
                  | head => exact Or.inl rfl
                  | tail _ hx2 => exact ihbin x hx2
              · have ht := topLevel_of_key_one e hk
                refine ⟨?_, ?_, ?_⟩
                · simp [List.filter_cons, ht, ih1]
                · simp [List.filter_cons, ht, ih2]
                · intro x hx
                  cases hx with
                  | head => exact Or.inr rfl
                  | tail _ hx2 => exact ihbin x hx2

theorem pySorted_partition (xs : List JVal) (kl : List (JVal × Nat))
    (h : keyedList xs = .ok kl) :
    pySorted xs = .ok (xs.filter (fun e => topLevel e) ++
      xs.filter (fun e => !topLevel e)) := by
  obtain ⟨h1, h2, hbin⟩ := keyedList_filters xs kl h
  simp only [pySorted, h, isortByKey_binary kl hbin, List.map_append, h1, h2]

/-- Claim C9: when both `humanReadable` and `fields` are truthy,
`hibob_people_search` replaces the employees entry by a stable reorder of
the resolved records in which every record whose `work` is a dict with
`reportsTo` equal to Python `None` (absent or null) precedes every other
record, relative order otherwise preserved (the stable partition by the sort
key); when `humanReadable` is absent/empty or `fields` is absent/empty, the
API result is returned exactly as produced, with no reordering. -/
theorem claim9_sort_behaviour (net : Net) (s : CacheState)
    (fields filters : Option (List JVal)) (hr : Option String) :
    (¬(optStrTruthy hr = true ∧ optListTruthy fields = true) →
      hibob_people_search net s fields filters hr =
        (s, hibob_api_call net "people/search" (some (searchBody fields filters)) "POST")) ∧
    (∀ (ro : List (String × JVal)) (s2 : CacheState) (l2 : List JVal)
        (kl : List (JVal × Nat)),
      optStrTruthy hr = true → optListTruthy fields = true →
      hibob_api_call net "people/search" (some (searchBody fields filters)) "POST" =
        .ok (.obj ro) →
      resolve_list_values net s ((lookupS ro "employees").getD (.arr []))
        (fields.getD []) = (s2, .ok (.arr l2)) →
      keyedList l2 = .ok kl →
      hibob_people_search net s fields filters hr =
        (s2, .ok (.obj (setS (setS ro "employees" (.arr l2)) "employees"
          (.arr (l2.filter (fun e => topLevel e) ++
                 l2.filter (fun e => !topLevel e))))))) := by
  constructor
  · intro hcond
    cases hapi : hibob_api_call net "people/search"
        (some (searchBody fields filters)) "POST" with
    | error e => simp only [hibob_people_search, hapi]
    | ok result => simp only [hibob_people_search, hapi, if_neg hcond]
  · intro ro s2 l2 kl hhr hf hapi hres hkl
    have hsorted := pySorted_partition l2 kl hkl
    simp only [hibob_people_search, hapi, if_pos (And.intro hhr hf), hres]
    have hiter : pyIter (.arr l2) = .ok l2 := rfl
    simp only [hiter, hsorted]

theorem claim9_witness :
    hibob_people_search netCEO initState (some [.str "work.title"]) none
        (some "REPLACE") =
      ((⟨metaWorkTitle, [(.str "L", listDataCEO)]⟩ : CacheState),
       .ok (.obj (setS (setS [("employees", .arr
          [.obj [("work", .obj [("title", .str "101"), ("reportsTo", .str "b")])],
           .obj [("work", .obj [("title", .str "7"), ("reportsTo", .null)])]])]
         "employees" (.arr
          [.obj [("work", .obj [("title", .str "CEO"), ("reportsTo", .str "b")])],
           .obj [("work", .obj [("title", .str "7"), ("reportsTo", .null)])]]))
         "employees" (.arr
          ([.obj [("work", .obj [("title", .str "CEO"), ("reportsTo", .str "b")])],
            .obj [("work", .obj [("title", .str "7"), ("reportsTo", .null)])]].filter
              (fun e => topLevel e) ++
           [.obj [("work", .obj [("title", .str "CEO"), ("reportsTo", .str "b")])],
            .obj [("work", .obj [("title", .str "7"), ("reportsTo", .null)])]].filter
              (fun e => !topLevel e)))))) :=
  (claim9_sort_behaviour netCEO initState (some [.str "work.title"]) none
      (some "REPLACE")).2
    [("employees", .arr
      [.obj [("work", .obj [("title", .str "101"), ("reportsTo", .str "b")])],
       .obj [("work", .obj [("title", .str "7"), ("reportsTo", .null)])]])]
    (⟨metaWorkTitle, [(.str "L", listDataCEO)]⟩ : CacheState)
    [.obj [("work", .obj [("title", .str "CEO"), ("reportsTo", .str "b")])],
     .obj [("work", .obj [("title", .str "7"), ("reportsTo", .null)])]]
    [(.obj [("work", .obj [("title", .str "CEO"), ("reportsTo", .str "b")])], 1),
     (.obj [("work", .obj [("title", .str "7"), ("reportsTo", .null)])], 0)]
    rfl rfl rfl rfl rfl

/-- Claim C10: `hibob_people_search` treats every truthy `humanReadable`
value identically — only its truthiness is inspected, so "APPEND" produces
exactly the same in-place replacement as "REPLACE" — and in particular
"APPEND" does not return the numeric id alongside the display name: on the
concrete run the resolved field holds only the display string. -/
theorem claim10_human_readable_uniform (net : Net) (s : CacheState)
    (fields filters : Option (List JVal)) :
    (∀ a b : String, a ≠ "" → b ≠ "" →
      hibob_people_search net s fields filters (some a) =
        hibob_people_search net s fields filters (some b)) ∧
    (hibob_people_search netCEO initState (some [.str "work.title"]) none
        (some "APPEND")).2 =
      .ok (.obj [("employees", .arr
        [.obj [("work", .obj [("title", .str "7"), ("reportsTo", .null)])],
         .obj [("work", .obj [("title", .str "CEO"), ("reportsTo", .str "b")])]])]) := by
  constructor
  · intro a b ha hb
    have h1 : optStrTruthy (some a) = true := by simp [optStrTruthy, ha]
    have h2 : optStrTruthy (some b) = true := by simp [optStrTruthy, hb]
    simp only [hibob_people_search, h1, h2]
  · rfl

theorem claim10_witness :
    hibob_people_search netCEO initState (some [.str "work.title"]) none
        (some "APPEND") =
      hibob_people_search netCEO initState (some [.str "work.title"]) none
        (some "REPLACE") :=
  (claim10_human_readable_uniform netCEO initState (some [.str "work.title"]) none).1
    "APPEND" "REPLACE" (by decide) (by decide)
